import Mathlib

/-!
# FilePollingDirectoryInput: reconciliation of running inputs against a directory

A shallow embedding of `file_polling_directory_input.go`.

* Go maps (`lsdi.inputs`, `lsdi.specified`) are association lists with distinct keys
  (`IsMap`); the order in which a `range` loop visits a map is supplied from outside
  (`RangeOrders`), one order per loop, so that every iteration order can be quantified over.
* The orchestrator (`pConfig.AddInputRunner`, `pConfig.RemoveInputRunner`) and the logger
  (`ir.LogMessage`, `ir.LogError`) are recorded as a trace of `Event`s; the outcome of
  `AddInputRunner` is supplied by an oracle that sees the trace of the cycle so far.
* Go `error` values are `Option String`: `none` is `nil`. `loadInputs` has the named
  result `err`: the loop over the desired set carries its value from iteration to
  iteration (`Iteration.err`), line 160 assigns it, and the bare `return` of line 167
  returns it.
* A Go panic is the result `none` of an `Option`: `getConfigFileInfo` panics on a section
  that `NewPluginMaker` rejects, and the panic ends the walk, `loadInputs` and `Run`.
* The directory tree is an `FsNode`; `filepath.Walk`, `filepath.Ext`, `filepath.Clean`
  and `filepath.Join` follow the Go standard library. What the toml decoder and the
  pipeline package yield for a file (sections, makers, configs, runners) is data attached
  to the file.

The definitions come first; the theorems C1 to C10 follow their helper lemmas.
-/

namespace FilePollingDirectoryInput

/-! ## Data model -/

/-- The `InputRunner` handle held by an entry: its identity, what `Name()` returns and the
flag set by `SetTransient`. -/
structure InputRunner where
  id : Nat
  name : String
  transient : Bool
  deriving DecidableEq, Repr

/-- The `file.FilePollingInputConfig` of an entry. Only `FilePath` and `TickerInterval` are
read by this program; `other` stands for every remaining field of the struct. -/
structure FilePollingInputConfig where
  FilePath : String
  TickerInterval : Nat
  other : String
  deriving DecidableEq, Repr

/-- The `MutableMaker` of an entry, as far as this program uses it: the name given by
`SetName`, and what its `OrigPrepConfig` and `MakeRunner` calls yield (an error, or else
the config, respectively a fresh runner of identity `runnerId`). -/
structure MutableMaker where
  name : String
  prepConfigErr : Option String
  prepConfig : FilePollingInputConfig
  makeRunnerErr : Option String
  runnerId : Nat
  deriving DecidableEq, Repr

/-- The `FilePollingEntry` struct. -/
structure FilePollingEntry where
  ir : InputRunner
  maker : MutableMaker
  config : FilePollingInputConfig
  fileName : String
  deriving DecidableEq, Repr

/-- A Go `map[string]*FilePollingEntry`. -/
abbrev EntryMap := List (String × FilePollingEntry)

/-- What the cycle does to the outside world, in order. -/
inductive Event where
  | removeInputRunner (ir : InputRunner)
  | addInputRunner (ir : InputRunner) (err : Option String)
  | logMessage (msg : String)
  | logError (msg : String)
  deriving DecidableEq, Repr

/-- The outcome of `pConfig.AddInputRunner`, given the trace of the cycle so far. -/
abbrev AddOracle := List Event → InputRunner → Option String

/-- The visiting orders of the three `range` loops over maps in `loadInputs`. -/
structure RangeOrders where
  stale : EntryMap → EntryMap
  specified : EntryMap → EntryMap
  scan : String → EntryMap → EntryMap

/-! ## Map operations -/

/-- The keys of a map. -/
def keys (m : EntryMap) : List String := m.map Prod.fst

/-- Go `m[k]` with the comma-ok form. -/
def lookup (m : EntryMap) (k : String) : Option FilePollingEntry :=
  (m.find? (fun kv => kv.1 == k)).map Prod.snd

/-- Go `delete(m, k)`. -/
def delete (m : EntryMap) (k : String) : EntryMap :=
  m.filter (fun kv => kv.1 != k)

/-- Go `m[k] = v`. -/
def store (m : EntryMap) (k : String) (v : FilePollingEntry) : EntryMap :=
  (k, v) :: delete m k

/-! ## Equals (lines 42-52) -/

/-- The method `Equals`. -/
def Equals (runningEntry otherEntry : FilePollingInputConfig) : Bool :=
  if runningEntry.FilePath != otherEntry.FilePath then false
  else if runningEntry.TickerInterval != otherEntry.TickerInterval then false
  else true

/-! ## loadInputs, lines 121-167 -/

/-- The removal loop (lines 122-128), visiting the entries of `lsdi.inputs` in the given
order. The loop deletes only the key it is visiting. -/
def removeStale (specified : EntryMap) :
    List (String × FilePollingEntry) → EntryMap → List Event → EntryMap × List Event
  | [], inputs, tr => (inputs, tr)
  | (name, entry) :: rest, inputs, tr =>
    if (lookup specified name).isNone then
      removeStale specified rest (delete inputs name)
        (tr ++ [Event.removeInputRunner entry.ir, Event.logMessage ("Removed: " ++ name)])
    else
      removeStale specified rest inputs tr

/-- The inner loop (lines 137-146): the first running entry, in visiting order, that has
the name of `newEntry` and another `fileName`. -/
def findDuplicate (newEntry : FilePollingEntry) (order : List (String × FilePollingEntry)) :
    Option (String × FilePollingEntry) :=
  order.find? (fun kv => newEntry.ir.name == kv.2.ir.name && newEntry.fileName != kv.2.fileName)

/-- The error of line 144. -/
def duplicateNameError (runningEntryInputName name : String) : String :=
  "Duplicate Name: Input with name [" ++ runningEntryInputName ++
    "] already exists. Not loading input file: " ++ name

/-- The result of `loadInputs`: the new `lsdi.inputs`, the events in order, and the
returned error. -/
structure Step where
  inputs : EntryMap
  events : List Event
  ret : Option String
  deriving DecidableEq, Repr

/-- The result of one iteration of the loop over `lsdi.specified`: the new `lsdi.inputs`,
the events of the iteration, the value of the named result `err` of `loadInputs` after the
iteration, and whether the iteration ended with the `return` of line 144. -/
structure Iteration where
  inputs : EntryMap
  events : List Event
  err : Option String
  returns : Bool
  deriving DecidableEq, Repr

/-- Lines 159-165: start the new input. Line 160 assigns what `AddInputRunner` returns to
the named result `err`, on success and on failure. -/
def startInput (add : AddOracle) (name : String) (newEntry : FilePollingEntry)
    (inputs : EntryMap) (tr : List Event) (events : List Event) : Iteration :=
  match add (tr ++ events) newEntry.ir with
  | some err =>
    { inputs := inputs
      events := events ++ [Event.addInputRunner newEntry.ir (some err),
        Event.logError ("creating input '" ++ name ++ "': " ++ err)]
      err := some err
      returns := false }
  | none =>
    { inputs := store inputs name newEntry
      events := events ++ [Event.addInputRunner newEntry.ir none,
        Event.logMessage ("Added: " ++ name)]
      err := none
      returns := false }

/-- The body of the loop over `lsdi.specified` (lines 133-166) for the pair
`(name, newEntry)`, entered with the value `err` of the named result. `dups` is the local
variable of that name: line 140 sets it only on the path that returns, so every iteration
sees the value `loadInputs` started with. -/
def processEntry (o : RangeOrders) (add : AddOracle) (dups : Bool)
    (name : String) (newEntry : FilePollingEntry) (inputs : EntryMap) (tr : List Event)
    (err : Option String) : Iteration :=
  match findDuplicate newEntry (o.scan name inputs) with
  | some (runningInputName, runningInput) =>
    { inputs := delete inputs runningInputName
      events := [Event.removeInputRunner runningInput.ir,
        Event.logMessage ("Removed: " ++ runningInputName)]
      err := some (duplicateNameError runningInput.ir.name name)
      returns := true }
  | none =>
    match lookup inputs name with
    | some runningEntry =>
      if (Equals runningEntry.config newEntry.config
          && runningEntry.ir.name == newEntry.ir.name) && !dups then
        { inputs := inputs, events := [], err := err, returns := false }
      else
        startInput add name newEntry (delete inputs name) tr
          [Event.removeInputRunner runningEntry.ir, Event.logMessage ("Removed: " ++ name)]
    | none => startInput add name newEntry inputs tr []

/-- The loop over `lsdi.specified` (lines 133-167), visiting its entries in the given
order, entered with the value `err` of the named result. The bare `return` of line 167
returns the named result: what the last `AddInputRunner` call of the cycle returned, if
there was one. -/
def activate (o : RangeOrders) (add : AddOracle) (dups : Bool) :
    List (String × FilePollingEntry) → EntryMap → List Event → Option String → Step
  | [], inputs, tr, err => { inputs := inputs, events := tr, ret := err }
  | (name, newEntry) :: rest, inputs, tr, err =>
    let s := processEntry o add dups name newEntry inputs tr err
    if s.returns then { inputs := s.inputs, events := tr ++ s.events, ret := s.err }
    else activate o add dups rest s.inputs (tr ++ s.events) s.err

/-- Lines 121-167 of `loadInputs`: the two passes over a desired set `specified` and a
running set `inputs`, after the trace `tr` of the walk. The named result `err` is nil
here, line 118 having returned otherwise. -/
def reconcile (o : RangeOrders) (add : AddOracle) (specified inputs : EntryMap)
    (tr : List Event) : Step :=
  let r := removeStale specified (o.stale inputs) inputs tr
  activate o add false (o.specified specified) r.1 r.2 none

/-! ## The files of the directory, as the walk sees them -/

/-- One section of a decoded file: its key; the error, if any, of the
`NewPluginMaker(name, pipeConfig, configFile)` of `getConfigFileInfo`, otherwise what that
throw-away maker reports (`Name()`, `Type()`, `Category()`); and what
`NewPluginMaker("FilePollingInput", lsdi.pConfig, section)` yields for it. -/
structure Section where
  name : String
  probeErr : Option String
  probeName : String
  probeType : String
  probeCategory : String
  newMakerErr : Option String
  newMaker : MutableMaker
  deriving DecidableEq, Repr

/-- What `toml.DecodeFile` yields for a path: an error, or the sections in the order in
which the `range` of line 239 visits them. -/
inductive Decoded where
  | failure (err : String)
  | sections (ss : List Section)
  deriving DecidableEq, Repr

/-- The `os.FileInfo` handed to the walk function, with what reading the path yields. -/
structure FileInfo where
  isDir : Bool
  decoded : Decoded
  deriving DecidableEq, Repr

mutual
/-- A path of the tree: one that `Lstat` fails on, a file, or a directory with what
`readDirNames` yields (an error, or its children in sorted order). -/
inductive FsNode where
  | missing (name : String) (err : String)
  | file (name : String) (decoded : Decoded)
  | dir (name : String) (readErr : Option String) (children : FsList)
/-- The children of a directory. -/
inductive FsList where
  | nil
  | cons (node : FsNode) (rest : FsList)
end

/-- The `os.FileInfo` of a node that `Lstat` succeeds on. -/
def FsNode.info : FsNode → FileInfo
  | .missing _ _ => { isDir := false, decoded := .failure "" }
  | .file _ d => { isDir := false, decoded := d }
  | .dir _ _ _ => { isDir := true, decoded := .failure "" }

/-- The errors a `filepath.WalkFunc` can return. -/
inductive WalkError where
  | SkipDir
  | SkipAll
  | other (msg : String)
  deriving DecidableEq, Repr

/-- The method `Error()` of a walk error. -/
def WalkError.Error : WalkError → String
  | .SkipDir => "skip this directory"
  | .SkipAll => "skip everything and stop the walk"
  | .other msg => msg

/-- The state the walk function works on: `lsdi.specified` and the log. -/
structure WalkState where
  specified : EntryMap
  trace : List Event
  deriving DecidableEq, Repr

/-- A `filepath.WalkFunc` acting on a state; `none` is a panic. -/
abbrev WalkFunc := String → Option FileInfo → Option String → WalkState →
  Option (WalkState × Option WalkError)

/-- The elements of a path between its separators; `cur` is the element being read, in
reverse. -/
def splitPath : List Char → List Char → List (List Char)
  | [], cur => [cur.reverse]
  | c :: cs, cur => if c == '/' then cur.reverse :: splitPath cs [] else splitPath cs (c :: cur)

/-- The loop body of `filepath.Clean` for one element, `out` being the elements written so
far, last first: an empty element and `.` are dropped, `..` removes the last real element,
or is kept when the path is not rooted and there is none, any other element is kept. -/
def cleanElem (rooted : Bool) (out : List (List Char)) (elem : List Char) : List (List Char) :=
  if elem == [] || elem == ['.'] then out
  else if elem == ['.', '.'] then
    match out with
    | top :: below => if top == ['.', '.'] then elem :: out else below
    | [] => if rooted then [] else [elem]
  else elem :: out

/-- The function `filepath.Clean` (separator `/`, no volume names). -/
def Clean (path : String) : String :=
  if path == "" then "."
  else
    let rooted := path.data.head? == some '/'
    let out := ((splitPath path.data []).foldl (cleanElem rooted) []).reverse
    let body := String.mk (List.intercalate ['/'] out)
    if rooted then "/" ++ body else if body == "" then "." else body

/-- The function `filepath.Join` for two elements: empty elements are ignored and the
result is cleaned. -/
def Join (path name : String) : String :=
  if path != "" then Clean (path ++ "/" ++ name)
  else if name != "" then Clean name
  else ""

/-- The scan of `filepath.Ext` from the end of the path: `acc` is the part already passed. -/
def extScan : List Char → List Char → String
  | [], _ => ""
  | c :: before, acc =>
    if c == '/' then "" else if c == '.' then String.mk (c :: acc) else extScan before (c :: acc)

/-- The function `filepath.Ext`: the suffix starting at the last dot of the last element of
the path, or the empty string. -/
def Ext (path : String) : String := extScan path.data.reverse []

mutual
/-- The function `walk` of `path/filepath`: a file is handed to the walk function; for a
directory `readDirNames` comes first, then the walk function on the path with the error of
`readDirNames`, then the children. The first case is the branch of `filepath.Walk` for a
root that `Lstat` fails on. A panic of the walk function ends the walk. -/
def walk (walkFn : WalkFunc) (path : String) :
    FsNode → WalkState → Option (WalkState × Option WalkError)
  | .missing _ err, st => walkFn path none (some err) st
  | .file n d, st => walkFn path (some (FsNode.file n d).info) none st
  | .dir n readErr children, st =>
    match walkFn path (some (FsNode.dir n readErr children).info) readErr st with
    | none => none
    | some r =>
      if readErr.isSome || r.2.isSome then some r
      else walkNames walkFn path children r.1
/-- The loop of `walk` over the names of a directory: a name that `Lstat` fails on is
handed to the walk function with that error, any other name is walked. -/
def walkNames (walkFn : WalkFunc) (path : String) :
    FsList → WalkState → Option (WalkState × Option WalkError)
  | .nil, st => some (st, none)
  | .cons (.missing name err) rest, st =>
    match walkFn (Join path name) none (some err) st with
    | none => none
    | some r =>
      if r.2.isSome && r.2 != some WalkError.SkipDir then some r
      else walkNames walkFn path rest r.1
  | .cons (.file name d) rest, st =>
    match walk walkFn (Join path name) (.file name d) st with
    | none => none
    | some r =>
      if r.2.isSome then some r
      else walkNames walkFn path rest r.1
  | .cons (.dir name readErr children) rest, st =>
    match walk walkFn (Join path name) (.dir name readErr children) st with
    | none => none
    | some r =>
      if r.2.isSome && r.2 != some WalkError.SkipDir then some r
      else walkNames walkFn path rest r.1
end

/-- The function `filepath.Walk`: when `Lstat` fails on the root the walk function gets
that error for the root path, otherwise the tree is walked; `SkipDir` and `SkipAll` become
`nil`. -/
def Walk (root : String) (node : FsNode) (walkFn : WalkFunc) (st : WalkState) :
    Option (WalkState × Option WalkError) :=
  match walk walkFn root node st with
  | none => none
  | some r =>
    if r.2 = some WalkError.SkipDir || r.2 = some WalkError.SkipAll then some (r.1, none)
    else some r

/-! ## loadFilePollingFile and its common-config hook (lines 228-295) -/

/-- The struct `RetryOptions` of the pipeline package. -/
structure RetryOptions where
  MaxDelay : String
  Delay : String
  MaxJitter : String
  MaxRetries : Int
  deriving DecidableEq, Repr

/-- The struct `CommonInputConfig` of the pipeline package; a `*bool` is an `Option Bool`,
`none` being the nil pointer. -/
structure CommonInputConfig where
  Ticker : Nat
  Decoder : String
  Splitter : String
  SyncDecode : Option Bool
  SendDecodeFailures : Option Bool
  LogDecodeFailures : Option Bool
  CanExit : Option Bool
  Retries : RetryOptions
  deriving DecidableEq, Repr

/-- The closure `prepCommonTypedConfig` (lines 262-278), given what
`mutMaker.OrigPrepCommonTypedConfig()` returns. -/
def prepCommonTypedConfig (OrigPrepCommonTypedConfig : Except String CommonInputConfig) :
    Except String CommonInputConfig :=
  match OrigPrepCommonTypedConfig with
  | .error err => .error err
  | .ok commonTypedConfig =>
    let commonInput := { commonTypedConfig with
      Retries := { MaxDelay := "30s", Delay := "250ms", MaxJitter := "", MaxRetries := -1 } }
    if commonInput.CanExit = none then
      .ok { commonInput with CanExit := some true }
    else
      .ok commonInput

/-- The method `getConfigFileInfo` (lines 287-295). The error of `NewPluginMaker` is
discarded; when there is one the maker is nil and `maker.Type()` panics (`none`). -/
def getConfigFileInfo (conf : Section) : Option (String × String × String) :=
  match conf.probeErr with
  | some _ => none
  | none =>
    if conf.probeType != "" then some (conf.probeName, conf.probeType, conf.probeCategory)
    else some ("", "", "")

/-- The loop of lines 239-247. The accumulator is `none` while `ok` is false, afterwards
the current values of `section` and `path`; the result is `none` when
`getConfigFileInfo` panics. -/
def selectSection : List Section → Option (Section × String) → Option (Option (Section × String))
  | [], acc => some acc
  | conf :: rest, acc =>
    match getConfigFileInfo conf with
    | none => none
    | some (confName, confType, _) =>
      if confType == "FilePollingInput" then selectSection rest (some (conf, confName))
      else selectSection rest acc

/-- The method `loadFilePollingFile` (lines 228-285): the maker of the new entry, named by
`SetName(path)` after `path` was overwritten with `confName`; `none` is a panic. -/
def loadFilePollingFile (decoded : Decoded) : Option (Except String MutableMaker) :=
  match decoded with
  | .failure err => some (.error err)
  | .sections unparsedConfig =>
    match selectSection unparsedConfig none with
    | none => none
    | some none => some (.error "No `FilePollingInput` section.")
    | some (some (conf, path)) =>
      match conf.newMakerErr with
      | some err => some (.error ("can't create plugin maker: " ++ err))
      | none => some (.ok { conf.newMaker with name := path })

/-! ## logDirWalkFunc (lines 174-226) -/

/-- Append a `LogError` to the trace. -/
def WalkState.logError (st : WalkState) (msg : String) : WalkState :=
  { st with trace := st.trace ++ [Event.logError msg] }

/-- The method `logDirWalkFunc`. `MakeRunner("")` names the runner after its maker. -/
def logDirWalkFunc : WalkFunc := fun path info err st =>
  match err with
  | some e => some (st.logError ("walking '" ++ path ++ "': " ++ e), none)
  | none =>
    match info with
    | none => some (st, none)
    | some info =>
      if info.isDir || Ext path != ".toml" then some (st, none)
      else
        match loadFilePollingFile info.decoded with
        | none => none
        | some (.error e) =>
          some (st.logError ("loading FilePollingInput file '" ++ path ++ "': " ++ e), none)
        | some (.ok maker) =>
          match maker.prepConfigErr with
          | some e => some (st.logError ("prepping config: " ++ e), none)
          | none =>
            match maker.makeRunnerErr with
            | some e => some (st.logError ("making runner: " ++ e), none)
            | none =>
              let entry : FilePollingEntry :=
                { ir := { id := maker.runnerId, name := maker.name, transient := true }
                  maker := maker
                  config := maker.prepConfig
                  fileName := path }
              some ({ st with specified := store st.specified path entry }, none)

/-! ## loadInputs (lines 111-168) and Run (lines 86-107) -/

/-- The method `loadInputs`, for the tree `root` found at `lsdi.logDir`; `none` is a
panic. -/
def loadInputs (o : RangeOrders) (add : AddOracle) (logDir : String) (root : FsNode)
    (inputs : EntryMap) : Option Step :=
  match Walk logDir root logDirWalkFunc { specified := [], trace := [] } with
  | none => none
  | some w =>
    match w.2 with
    | some err => some { inputs := inputs, events := w.1.trace, ret := some err.Error }
    | none => some (reconcile o add w.1.specified inputs w.1.trace)

/-- What one call of `loadInputs` meets: the visiting orders, the orchestrator and the tree. -/
structure Cycle where
  orders : RangeOrders
  add : AddOracle
  root : FsNode

/-- What wakes the `select` of `Run`: the closed `stopChan`, or a tick of the ticker with
what the following `loadInputs` meets. -/
inductive Wake where
  | stop
  | tick (c : Cycle)

/-- The loop of `Run` (lines 96-104) over the wake-ups that arrive; when they run out the
loop is still waiting and the state so far is reported with `nil`. -/
def runLoop (logDir : String) : List Wake → EntryMap → List Event → Option Step
  | [], inputs, tr => some { inputs := inputs, events := tr, ret := none }
  | .stop :: _, inputs, tr => some { inputs := inputs, events := tr, ret := none }
  | .tick c :: rest, inputs, tr =>
    match loadInputs c.orders c.add logDir c.root inputs with
    | none => none
    | some s =>
      match s.ret with
      | some err => some { inputs := s.inputs, events := tr ++ s.events, ret := some err }
      | none => runLoop logDir rest s.inputs (tr ++ s.events)

/-- The method `Run`: one `loadInputs`, then the loop; `none` is a panic. -/
def Run (logDir : String) (first : Cycle) (wakes : List Wake) (inputs : EntryMap) :
    Option Step :=
  match loadInputs first.orders first.add logDir first.root inputs with
  | none => none
  | some s =>
    match s.ret with
    | some _ => some s
    | none => runLoop logDir wakes s.inputs s.events

/-! ## Well-formedness of maps and visiting orders -/

/-- A Go map has one entry per key. -/
def IsMap (m : EntryMap) : Prop := (keys m).Nodup

/-- Every entry is stored under the key equal to its `fileName`. -/
def KeyedByFileName (m : EntryMap) : Prop := ∀ kv ∈ m, kv.2.fileName = kv.1

/-- No two entries stored under distinct keys have the same `ir.Name()`. -/
def UniqueNames (m : EntryMap) : Prop :=
  ∀ kv ∈ m, ∀ kv' ∈ m, kv.2.ir.name = kv'.2.ir.name → kv.1 = kv'.1

/-- Each `range` loop visits every entry of its map once, in some order. -/
def RangeOrders.Valid (o : RangeOrders) : Prop :=
  (∀ m, (o.stale m).Perm m) ∧ (∀ m, (o.specified m).Perm m) ∧ ∀ k m, (o.scan k m).Perm m

/-- The orders in which every loop visits the entries as they are stored. -/
def storedOrders : RangeOrders :=
  { stale := fun m => m, specified := fun m => m, scan := fun _ m => m }

/-- The orders in which every loop visits the entries in reverse. -/
def reversedOrders : RangeOrders :=
  { stale := List.reverse, specified := List.reverse, scan := fun _ m => m.reverse }

/-- An orchestrator whose `AddInputRunner` always succeeds. -/
def addAlwaysSucceeds : AddOracle := fun _ _ => none

/-- An orchestrator whose `AddInputRunner` always fails with the given error. -/
def addAlwaysFails (err : String) : AddOracle := fun _ _ => some err

/-- Whether an event is a call of `AddInputRunner`. -/
def Event.isAdd : Event → Bool
  | .addInputRunner _ _ => true
  | _ => false

/-- Whether an event is a call of `AddInputRunner` that returned an error. -/
def Event.isFailedAdd : Event → Bool
  | .addInputRunner _ (some _) => true
  | _ => false

/-- Whether an event is a call of the orchestrator. -/
def Event.isCall : Event → Bool
  | .addInputRunner _ _ => true
  | .removeInputRunner _ => true
  | _ => false

/-- The test of line 138. -/
def isDuplicateOf (newEntry : FilePollingEntry) (kv : String × FilePollingEntry) : Prop :=
  newEntry.ir.name = kv.2.ir.name ∧ newEntry.fileName ≠ kv.2.fileName

/-- The calls and log lines of the removal loop (lines 124 and 126) for the stale entries
among the visited ones, in visiting order. -/
def staleEvents (specified : EntryMap) : List (String × FilePollingEntry) → List Event
  | [] => []
  | (name, entry) :: rest =>
    if (lookup specified name).isNone then
      Event.removeInputRunner entry.ir :: Event.logMessage ("Removed: " ++ name) ::
        staleEvents specified rest
    else staleEvents specified rest


/-- What a later scan must keep of a desired entry for the desired set to count as
unchanged: its path, its runner name, and the `FilePath` and `TickerInterval` of its config. -/
def signature (kv : String × FilePollingEntry) : String × String × String × Nat :=
  (kv.1, kv.2.ir.name, kv.2.config.FilePath, kv.2.config.TickerInterval)

/-- Two desired sets with the same paths, the same runner names and the same
`FilePath`/`TickerInterval` under each path. -/
def SameDesired (D D' : EntryMap) : Prop := (D'.map signature).Perm (D.map signature)

/-! ## Concrete data for the worked examples -/

/-- A maker named `name` whose calls succeed. -/
def sampleMaker (id : Nat) (name : String) (interval : Nat) : MutableMaker :=
  { name := name, prepConfigErr := none
    prepConfig := { FilePath := "/var/log/app.log", TickerInterval := interval, other := "" }
    makeRunnerErr := none, runnerId := id }

/-- The entry that `logDirWalkFunc` stores for the file `path` defining the input `name`. -/
def sampleEntry (id : Nat) (name path : String) (interval : Nat) : FilePollingEntry :=
  { ir := { id := id, name := name, transient := true }
    maker := sampleMaker id name interval
    config := { FilePath := "/var/log/app.log", TickerInterval := interval, other := "" }
    fileName := path }

/-- What the walk may do to its state: only `LogError` lines are added to the trace, and
`lsdi.specified` stays a map keyed by `fileName`. -/
def WalkState.Extends (st st' : WalkState) : Prop :=
  (∃ evs, st'.trace = st.trace ++ evs ∧ ∀ ev ∈ evs, ∃ msg, ev = Event.logError msg) ∧
  (IsMap st.specified → IsMap st'.specified) ∧
  (KeyedByFileName st.specified → KeyedByFileName st'.specified)

/-- A file with one `FilePollingInput` section named `name`, whose maker calls succeed. -/
def sampleFile (fileName : String) (id : Nat) (name : String) (interval : Nat) : FsNode :=
  .file fileName (.sections [
    { name := name
      probeErr := none
      probeName := name
      probeType := "FilePollingInput"
      probeCategory := "Input"
      newMakerErr := none
      newMaker := sampleMaker id "" interval }])

/-- A readable directory `files.d` with two files that both define the input "x". -/
def sampleConflictDir : FsNode :=
  .dir "files.d" none
    (.cons (sampleFile "a.toml" 1 "x" 5) (.cons (sampleFile "b.toml" 2 "x" 5) .nil))

/-- A root directory that `Lstat` fails on. -/
def sampleMissingRoot : FsNode := .missing "files.d" "no such file or directory"

/-- A root directory that cannot be read. -/
def sampleUnreadableRoot : FsNode :=
  .dir "files.d" (some "permission denied") (.cons (sampleFile "a.toml" 1 "x" 5) .nil)

/-- Whether `getConfigFileInfo` can handle every section of a decoded file. -/
def Decoded.probesOk : Decoded → Bool
  | .failure _ => true
  | .sections ss => ss.all (fun conf => conf.probeErr.isNone)

mutual
/-- Whether `getConfigFileInfo` can handle every section of every file of the tree. -/
def FsNode.probesOk : FsNode → Bool
  | .missing _ _ => true
  | .file _ d => d.probesOk
  | .dir _ _ children => children.probesOk
/-- Whether `getConfigFileInfo` can handle every section of every file of the list. -/
def FsList.probesOk : FsList → Bool
  | .nil => true
  | .cons node rest => node.probesOk && rest.probesOk
end

/-- The events hold no "Removed" and no "Added" log line for the path `p`. -/
def NoLogFor (p : String) (evs : List Event) : Prop :=
  Event.logMessage ("Removed: " ++ p) ∉ evs ∧ Event.logMessage ("Added: " ++ p) ∉ evs

/-! ## Lemmas on maps -/

theorem mem_delete {m : EntryMap} {k : String} {kv : String × FilePollingEntry} :
    kv ∈ delete m k ↔ kv ∈ m ∧ kv.1 ≠ k := by
  simp [delete]

theorem mem_store {m : EntryMap} {k : String} {v : FilePollingEntry}
    {kv : String × FilePollingEntry} :
    kv ∈ store m k v ↔ kv = (k, v) ∨ (kv ∈ m ∧ kv.1 ≠ k) := by
  simp [store, mem_delete]

theorem mem_of_lookup {m : EntryMap} {k : String} {v : FilePollingEntry}
    (h : lookup m k = some v) : (k, v) ∈ m := by
  unfold lookup at h
  cases hf : m.find? (fun kv => kv.1 == k) with
  | none => simp [hf] at h
  | some kv =>
    rw [hf] at h
    simp at h
    have h1 := List.find?_some hf
    have h2 := List.mem_of_find?_eq_some hf
    simp at h1
    obtain ⟨a, b⟩ := kv
    simp at h1 h
    subst h1; subst h
    exact h2

theorem lookup_eq_none_iff {m : EntryMap} {k : String} :
    lookup m k = none ↔ k ∉ keys m := by
  simp [lookup, keys, List.find?_eq_none]
  constructor
  · intro h v hv; exact h k v hv rfl
  · intro h a b hab hak; subst hak; exact h b hab

theorem lookup_of_mem {m : EntryMap} (hm : IsMap m) {k : String} {v : FilePollingEntry}
    (h : (k, v) ∈ m) : lookup m k = some v := by
  induction m with
  | nil => cases h
  | cons x rest ih =>
    obtain ⟨a, b⟩ := x
    simp [IsMap, keys] at hm
    rcases List.mem_cons.1 h with h | h
    · cases h
      simp [lookup]
    · have hne : a ≠ k := by
        intro hak; subst hak; exact hm.1 v h
      have : lookup rest k = some v := ih (by simpa [IsMap, keys] using hm.2) h
      simp [lookup, List.find?_cons, hne] at this ⊢
      exact this

theorem lookup_delete_self (m : EntryMap) (k : String) : lookup (delete m k) k = none := by
  rw [lookup_eq_none_iff]
  simp [keys, delete]

theorem lookup_delete_ne (m : EntryMap) {k q : String} (h : q ≠ k) :
    lookup (delete m k) q = lookup m q := by
  induction m with
  | nil => rfl
  | cons x rest ih =>
    obtain ⟨a, b⟩ := x
    by_cases hak : a = k
    · subst hak
      have hq : ¬ a = q := fun e => h e.symm
      simp [delete, lookup, List.find?_cons, hq] at ih ⊢
      exact ih
    · by_cases haq : a = q
      · subst haq
        simp [delete, lookup, List.filter_cons, hak, List.find?_cons]
      · simp [delete, lookup, List.filter_cons, hak, List.find?_cons, haq] at ih ⊢
        exact ih

theorem lookup_store_self (m : EntryMap) (k : String) (v : FilePollingEntry) :
    lookup (store m k v) k = some v := by
  simp [store, lookup]

theorem lookup_store_ne (m : EntryMap) {k q : String} (v : FilePollingEntry) (h : q ≠ k) :
    lookup (store m k v) q = lookup m q := by
  have hk : ¬ k = q := fun e => h e.symm
  have := lookup_delete_ne m h
  simp [store, lookup, List.find?_cons, hk] at this ⊢
  exact this

theorem isMap_delete {m : EntryMap} (hm : IsMap m) (k : String) : IsMap (delete m k) := by
  unfold IsMap keys delete
  exact List.Nodup.sublist (List.Sublist.map _ (List.filter_sublist m)) hm

theorem isMap_store {m : EntryMap} (hm : IsMap m) (k : String) (v : FilePollingEntry) :
    IsMap (store m k v) := by
  have h1 := isMap_delete hm k
  have h2 : k ∉ keys (delete m k) := lookup_eq_none_iff.1 (lookup_delete_self m k)
  unfold IsMap at *
  simp only [store, keys, List.map_cons, List.nodup_cons]
  exact ⟨h2, h1⟩

theorem keyed_delete {m : EntryMap} (hm : KeyedByFileName m) (k : String) :
    KeyedByFileName (delete m k) := fun kv h => hm kv (mem_delete.1 h).1

theorem keyed_store {m : EntryMap} (hm : KeyedByFileName m) {k : String}
    {v : FilePollingEntry} (hv : v.fileName = k) : KeyedByFileName (store m k v) := by
  intro kv h
  rcases mem_store.1 h with h | h
  · subst h; exact hv
  · exact hm kv h.1

theorem Equals_iff (a b : FilePollingInputConfig) :
    Equals a b = true ↔ a.FilePath = b.FilePath ∧ a.TickerInterval = b.TickerInterval := by
  unfold Equals
  by_cases h1 : a.FilePath = b.FilePath <;> by_cases h2 : a.TickerInterval = b.TickerInterval <;>
    simp [h1, h2]

/-! ## Lemmas on the loops -/

theorem findDuplicate_none {o : RangeOrders} (ho : o.Valid) {e : FilePollingEntry}
    {name : String} {inputs : EntryMap} (h : findDuplicate e (o.scan name inputs) = none) :
    ∀ kv ∈ inputs, e.ir.name = kv.2.ir.name → e.fileName = kv.2.fileName := by
  intro kv hkv hn
  unfold findDuplicate at h
  rw [List.find?_eq_none] at h
  have := h kv ((ho.2.2 name inputs).mem_iff.2 hkv)
  simpa [hn] using this

theorem findDuplicate_some {o : RangeOrders} (ho : o.Valid) {e : FilePollingEntry}
    {name : String} {inputs : EntryMap} {kv : String × FilePollingEntry}
    (h : findDuplicate e (o.scan name inputs) = some kv) :
    kv ∈ inputs ∧ isDuplicateOf e kv := by
  unfold findDuplicate at h
  have h1 := List.find?_some h
  have h2 := List.mem_of_find?_eq_some h
  refine ⟨(ho.2.2 name inputs).mem_iff.1 h2, ?_⟩
  simpa [isDuplicateOf] using h1

theorem findDuplicate_of_none_exists {o : RangeOrders} (ho : o.Valid) {e : FilePollingEntry}
    {name : String} {inputs : EntryMap}
    (h : ∀ kv ∈ inputs, e.ir.name = kv.2.ir.name → e.fileName = kv.2.fileName) :
    findDuplicate e (o.scan name inputs) = none := by
  unfold findDuplicate
  rw [List.find?_eq_none]
  intro kv hkv
  have hm := (ho.2.2 name inputs).mem_iff.1 hkv
  have := h kv hm
  simp
  exact this

theorem findDuplicate_isSome {o : RangeOrders} (ho : o.Valid) {e : FilePollingEntry}
    {name : String} {inputs : EntryMap} {kv : String × FilePollingEntry}
    (hkv : kv ∈ inputs) (hd : isDuplicateOf e kv) :
    ∃ kv', findDuplicate e (o.scan name inputs) = some kv' := by
  cases hf : findDuplicate e (o.scan name inputs) with
  | some kv' => exact ⟨kv', rfl⟩
  | none => exact absurd (findDuplicate_none ho hf kv hkv hd.1) hd.2

theorem removeStale_trace (specified : EntryMap) :
    ∀ (order : List (String × FilePollingEntry)) (inputs : EntryMap) (tr : List Event),
      (removeStale specified order inputs tr).2 = tr ++ staleEvents specified order := by
  intro order
  induction order with
  | nil => intro inputs tr; simp [removeStale, staleEvents]
  | cons x rest ih =>
    intro inputs tr
    obtain ⟨name, entry⟩ := x
    by_cases h : (lookup specified name).isNone
    · simp [removeStale, staleEvents, h, ih]
    · simp [removeStale, staleEvents, h, ih]

theorem removeStale_inputs (specified : EntryMap) :
    ∀ (order : List (String × FilePollingEntry)) (inputs : EntryMap) (tr : List Event),
      (removeStale specified order inputs tr).1 =
        inputs.filter (fun kv => !(decide (kv.1 ∈ keys order) && (lookup specified kv.1).isNone)) := by
  intro order
  induction order with
  | nil => intro inputs tr; simp [removeStale, keys]
  | cons x rest ih =>
    intro inputs tr
    obtain ⟨name, entry⟩ := x
    by_cases h : (lookup specified name).isNone
    · simp only [removeStale, h, if_true, ih, delete, List.filter_filter]
      apply List.filter_congr
      intro kv _
      rw [Bool.eq_iff_iff]
      by_cases hk : kv.1 = name
      · simp [hk, keys, h]
      · simp [hk, keys]
    · have hn : (lookup specified name).isNone = false := by
        cases hl : lookup specified name <;> simp [hl] at h ⊢
      simp only [removeStale, hn, Bool.false_eq_true, if_false, ih]
      apply List.filter_congr
      intro kv _
      rw [Bool.eq_iff_iff]
      by_cases hk : kv.1 = name
      · simp [hk, keys, hn]
      · simp [hk, keys]

theorem removeStale_inputs_valid {o : RangeOrders} (ho : o.Valid) (specified inputs : EntryMap)
    (tr : List Event) :
    (removeStale specified (o.stale inputs) inputs tr).1 =
      inputs.filter (fun kv => (lookup specified kv.1).isSome) := by
  rw [removeStale_inputs]
  apply List.filter_congr
  intro kv hkv
  have : kv.1 ∈ keys (o.stale inputs) := by
    unfold keys
    exact List.mem_map_of_mem _ ((ho.1 inputs).mem_iff.2 hkv)
  cases hl : lookup specified kv.1 <;> simp [this, hl]

theorem staleEvents_noAdd (specified : EntryMap) (order : List (String × FilePollingEntry)) :
    ∀ ev ∈ staleEvents specified order, ev.isAdd = false := by
  induction order with
  | nil => intro ev h; cases h
  | cons x rest ih =>
    obtain ⟨name, entry⟩ := x
    intro ev h
    by_cases hs : (lookup specified name).isNone
    · simp [staleEvents, hs] at h
      rcases h with h | h | h
      · subst h; rfl
      · subst h; rfl
      · exact ih ev h
    · simp [staleEvents, hs] at h
      exact ih ev h

theorem activate_trace_mono (o : RangeOrders) (add : AddOracle) (dups : Bool) :
    ∀ (L : List (String × FilePollingEntry)) (inputs : EntryMap) (tr : List Event)
      (err : Option String),
      ∃ evs, (activate o add dups L inputs tr err).events = tr ++ evs := by
  intro L
  induction L with
  | nil => intro inputs tr err; exact ⟨[], by simp [activate]⟩
  | cons x rest ih =>
    intro inputs tr err
    obtain ⟨name, e⟩ := x
    simp only [activate]
    cases hr : (processEntry o add dups name e inputs tr err).returns with
    | true => exact ⟨_, rfl⟩
    | false =>
      obtain ⟨evs, h⟩ := ih (processEntry o add dups name e inputs tr err).inputs
        (tr ++ (processEntry o add dups name e inputs tr err).events)
        (processEntry o add dups name e inputs tr err).err
      exact ⟨(processEntry o add dups name e inputs tr err).events ++ evs, by simp [h]⟩

/-! ## One iteration of the loop over the desired set -/

theorem processEntry_duplicate (o : RangeOrders) (add : AddOracle) (dups : Bool)
    (name : String) (e : FilePollingEntry) (inputs : EntryMap) (tr : List Event)
    (err : Option String)
    {kv : String × FilePollingEntry} (h : findDuplicate e (o.scan name inputs) = some kv) :
    processEntry o add dups name e inputs tr err =
      { inputs := delete inputs kv.1
        events := [Event.removeInputRunner kv.2.ir, Event.logMessage ("Removed: " ++ kv.1)]
        err := some (duplicateNameError kv.2.ir.name name)
        returns := true } := by
  obtain ⟨a, b⟩ := kv
  simp [processEntry, h]

theorem processEntry_keep (o : RangeOrders) (add : AddOracle)
    (name : String) (e : FilePollingEntry) (inputs : EntryMap) (tr : List Event)
    (err : Option String)
    {r : FilePollingEntry} (h : findDuplicate e (o.scan name inputs) = none)
    (hl : lookup inputs name = some r) (heq : Equals r.config e.config = true)
    (hn : r.ir.name = e.ir.name) :
    processEntry o add false name e inputs tr err =
      { inputs := inputs, events := [], err := err, returns := false } := by
  simp [processEntry, h, hl, heq, hn]

theorem processEntry_replace (o : RangeOrders) (add : AddOracle) (dups : Bool)
    (name : String) (e : FilePollingEntry) (inputs : EntryMap) (tr : List Event)
    (err : Option String)
    {r : FilePollingEntry} (h : findDuplicate e (o.scan name inputs) = none)
    (hl : lookup inputs name = some r)
    (hc : ((Equals r.config e.config && r.ir.name == e.ir.name) && !dups) = false) :
    processEntry o add dups name e inputs tr err =
      startInput add name e (delete inputs name) tr
        [Event.removeInputRunner r.ir, Event.logMessage ("Removed: " ++ name)] := by
  simp only [processEntry, h, hl, hc]
  simp

theorem processEntry_fresh (o : RangeOrders) (add : AddOracle) (dups : Bool)
    (name : String) (e : FilePollingEntry) (inputs : EntryMap) (tr : List Event)
    (err : Option String)
    (h : findDuplicate e (o.scan name inputs) = none) (hl : lookup inputs name = none) :
    processEntry o add dups name e inputs tr err = startInput add name e inputs tr [] := by
  simp only [processEntry, h, hl]

theorem startInput_returns (add : AddOracle) (name : String) (e : FilePollingEntry)
    (inputs : EntryMap) (tr evs : List Event) :
    (startInput add name e inputs tr evs).returns = false := by
  unfold startInput
  cases add (tr ++ evs) e.ir <;> rfl

theorem startInput_err (add : AddOracle) (name : String) (e : FilePollingEntry)
    (inputs : EntryMap) (tr evs : List Event) :
    (startInput add name e inputs tr evs).err = add (tr ++ evs) e.ir := by
  unfold startInput
  cases add (tr ++ evs) e.ir <;> rfl

theorem startInput_inputs (add : AddOracle) (name : String) (e : FilePollingEntry)
    (inputs : EntryMap) (tr evs : List Event) :
    (startInput add name e inputs tr evs).inputs =
      if (add (tr ++ evs) e.ir).isSome then inputs else store inputs name e := by
  unfold startInput
  cases add (tr ++ evs) e.ir <;> rfl

theorem startInput_events (add : AddOracle) (name : String) (e : FilePollingEntry)
    (inputs : EntryMap) (tr evs : List Event) :
    (startInput add name e inputs tr evs).events =
      evs ++ [Event.addInputRunner e.ir (add (tr ++ evs) e.ir),
        match add (tr ++ evs) e.ir with
        | some err => Event.logError ("creating input '" ++ name ++ "': " ++ err)
        | none => Event.logMessage ("Added: " ++ name)] := by
  unfold startInput
  cases add (tr ++ evs) e.ir <;> rfl

/-- An iteration returns exactly on a running duplicate, and then with the Duplicate Name
error for the path of the iteration. -/
theorem processEntry_returns (o : RangeOrders) (add : AddOracle) (dups : Bool)
    (name : String) (e : FilePollingEntry) (inputs : EntryMap) (tr : List Event)
    (err : Option String)
    (h : (processEntry o add dups name e inputs tr err).returns = true) :
    ∃ kv, findDuplicate e (o.scan name inputs) = some kv ∧
      (processEntry o add dups name e inputs tr err).err =
        some (duplicateNameError e.ir.name name) := by
  cases hf : findDuplicate e (o.scan name inputs) with
  | some kv =>
    have hp := List.find?_some hf
    have hname : e.ir.name = kv.2.ir.name := by
      simp only [Bool.and_eq_true, beq_iff_eq] at hp
      exact hp.1
    refine ⟨kv, rfl, ?_⟩
    rw [processEntry_duplicate o add dups name e inputs tr err hf, hname]
  | none =>
    exfalso
    cases hl : lookup inputs name with
    | none =>
      rw [processEntry_fresh o add dups name e inputs tr err hf hl, startInput_returns] at h
      cases h
    | some r =>
      simp only [processEntry, hf, hl] at h
      split at h
      · cases h
      · rw [startInput_returns] at h
        cases h

theorem processEntry_not_returns (o : RangeOrders) (add : AddOracle) (dups : Bool)
    (name : String) (e : FilePollingEntry) (inputs : EntryMap) (tr : List Event)
    (err : Option String) (hf : findDuplicate e (o.scan name inputs) = none) :
    (processEntry o add dups name e inputs tr err).returns = false := by
  cases h : (processEntry o add dups name e inputs tr err).returns with
  | false => rfl
  | true =>
    obtain ⟨kv, hkv, _⟩ := processEntry_returns o add dups name e inputs tr err h
    rw [hf] at hkv
    cases hkv

theorem processEntry_invariant {o : RangeOrders} (ho : o.Valid) (add : AddOracle) (dups : Bool)
    (name : String) (e : FilePollingEntry) (inputs : EntryMap) (tr : List Event)
    (err : Option String)
    (he : e.fileName = name)
    (hI : IsMap inputs ∧ KeyedByFileName inputs ∧ UniqueNames inputs) :
    IsMap (processEntry o add dups name e inputs tr err).inputs ∧
      KeyedByFileName (processEntry o add dups name e inputs tr err).inputs ∧
      UniqueNames (processEntry o add dups name e inputs tr err).inputs := by
  obtain ⟨hm, hk, hu⟩ := hI
  have hdel : ∀ k, IsMap (delete inputs k) ∧ KeyedByFileName (delete inputs k) ∧
      UniqueNames (delete inputs k) := fun k =>
    ⟨isMap_delete hm k, keyed_delete hk k,
      fun a ha b hb hab => hu a (mem_delete.1 ha).1 b (mem_delete.1 hb).1 hab⟩
  cases hf : findDuplicate e (o.scan name inputs) with
  | some kv =>
    rw [processEntry_duplicate o add dups name e inputs tr err hf]
    exact hdel kv.1
  | none =>
    have hnd := findDuplicate_none ho hf
    -- starting the new entry on a map without an entry of its name under another key
    have hstart : ∀ (m : EntryMap) (evs : List Event), IsMap m → KeyedByFileName m →
        UniqueNames m → (∀ kv ∈ m, e.ir.name = kv.2.ir.name → kv.1 = name) →
        IsMap (startInput add name e m tr evs).inputs ∧
          KeyedByFileName (startInput add name e m tr evs).inputs ∧
          UniqueNames (startInput add name e m tr evs).inputs := by
      intro m evs hm' hk' hu' hno
      rw [startInput_inputs]
      cases add (tr ++ evs) e.ir with
      | some err => exact ⟨hm', hk', hu'⟩
      | none =>
        refine ⟨isMap_store hm' name e, keyed_store hk' he, ?_⟩
        intro a ha b hb hab
        rcases mem_store.1 ha with ha | ha <;> rcases mem_store.1 hb with hb | hb
        · rw [ha, hb]
        · subst ha
          exact absurd (hno b hb.1 hab) hb.2
        · subst hb
          exact absurd (hno a ha.1 hab.symm) ha.2
        · exact hu' a ha.1 b hb.1 hab
    have hno : ∀ kv ∈ inputs, e.ir.name = kv.2.ir.name → kv.1 = name := by
      intro kv hkv hn
      rw [← hk kv hkv, ← hnd kv hkv hn, he]
    cases hl : lookup inputs name with
    | none =>
      rw [processEntry_fresh o add dups name e inputs tr err hf hl]
      exact hstart inputs [] hm hk hu hno
    | some r =>
      by_cases hc : ((Equals r.config e.config && r.ir.name == e.ir.name) && !dups) = true
      · have : processEntry o add dups name e inputs tr err =
            { inputs := inputs, events := [], err := err, returns := false } := by
          simp only [processEntry, hf, hl, hc, if_true]
        rw [this]
        exact ⟨hm, hk, hu⟩
      · have hc' : ((Equals r.config e.config && r.ir.name == e.ir.name) && !dups) = false := by
          simpa using hc
        rw [processEntry_replace o add dups name e inputs tr err hf hl hc']
        obtain ⟨h1, h2, h3⟩ := hdel name
        exact hstart (delete inputs name) _ h1 h2 h3
          (fun kv hkv hn => hno kv (mem_delete.1 hkv).1 hn)

/-! ## The invariant of the running set -/

theorem activate_invariant {o : RangeOrders} (ho : o.Valid) (add : AddOracle) (dups : Bool) :
    ∀ (L : List (String × FilePollingEntry)) (inputs : EntryMap) (tr : List Event)
      (err : Option String),
      KeyedByFileName L → IsMap inputs ∧ KeyedByFileName inputs ∧ UniqueNames inputs →
      IsMap (activate o add dups L inputs tr err).inputs ∧
        KeyedByFileName (activate o add dups L inputs tr err).inputs ∧
        UniqueNames (activate o add dups L inputs tr err).inputs := by
  intro L
  induction L with
  | nil => intro inputs tr err _ hI; simpa [activate] using hI
  | cons x rest ih =>
    intro inputs tr err hL hI
    obtain ⟨name, e⟩ := x
    have he : e.fileName = name := hL (name, e) (List.mem_cons_self _ _)
    have hrest : KeyedByFileName rest := fun kv h => hL kv (List.mem_cons_of_mem _ h)
    have hstep := processEntry_invariant ho add dups name e inputs tr err he hI
    simp only [activate]
    cases hr : (processEntry o add dups name e inputs tr err).returns with
    | true => exact hstep
    | false => exact ih _ _ _ hrest hstep

theorem filter_invariant (p : String × FilePollingEntry → Bool) {m : EntryMap}
    (hI : IsMap m ∧ KeyedByFileName m ∧ UniqueNames m) :
    IsMap (m.filter p) ∧ KeyedByFileName (m.filter p) ∧ UniqueNames (m.filter p) := by
  obtain ⟨hm, hk, hu⟩ := hI
  refine ⟨?_, ?_, ?_⟩
  · unfold IsMap keys
    exact List.Nodup.sublist (List.Sublist.map _ (List.filter_sublist m)) hm
  · intro kv h
    exact hk kv (List.mem_filter.1 h).1
  · intro a ha b hb hab
    exact hu a (List.mem_filter.1 ha).1 b (List.mem_filter.1 hb).1 hab

theorem reconcile_eq {o : RangeOrders} (ho : o.Valid) (add : AddOracle)
    (specified inputs : EntryMap) (tr : List Event) :
    reconcile o add specified inputs tr =
      activate o add false (o.specified specified)
        (inputs.filter (fun kv => (lookup specified kv.1).isSome))
        (tr ++ staleEvents specified (o.stale inputs)) none := by
  simp only [reconcile]
  rw [removeStale_inputs_valid ho, removeStale_trace]
/-! ## A cycle without error in which every start succeeds -/

theorem processEntry_converged {o : RangeOrders} (ho : o.Valid) (add : AddOracle)
    (name : String) (e : FilePollingEntry) (inputs : EntryMap) (tr : List Event)
    (err : Option String)
    (he : e.fileName = name) (hm : IsMap inputs) (hk : KeyedByFileName inputs)
    (hret : (processEntry o add false name e inputs tr err).returns = false)
    (hadd : ∀ ev ∈ (processEntry o add false name e inputs tr err).events,
      ev.isFailedAdd = false) :
    (∀ kv ∈ inputs, kv.2.ir.name = e.ir.name → kv.1 = name) ∧
      (∃ r, lookup (processEntry o add false name e inputs tr err).inputs name = some r ∧
        r.ir.name = e.ir.name ∧ Equals r.config e.config = true) ∧
      (∀ q, q ≠ name → lookup (processEntry o add false name e inputs tr err).inputs q = lookup inputs q) ∧
      IsMap (processEntry o add false name e inputs tr err).inputs ∧
      KeyedByFileName (processEntry o add false name e inputs tr err).inputs := by
  cases hf : findDuplicate e (o.scan name inputs) with
  | some kv =>
    rw [processEntry_duplicate o add false name e inputs tr err hf] at hret
    cases hret
  | none =>
    have hnd := findDuplicate_none ho hf
    have hno : ∀ kv ∈ inputs, kv.2.ir.name = e.ir.name → kv.1 = name := by
      intro kv hkv hn
      rw [← hk kv hkv, ← hnd kv hkv hn.symm, he]
    have hEq : Equals e.config e.config = true := (Equals_iff _ _).2 ⟨rfl, rfl⟩
    -- the start of the new entry, which succeeds
    have hstart : ∀ (m : EntryMap) (evs : List Event), IsMap m → KeyedByFileName m →
        (∀ q, q ≠ name → lookup m q = lookup inputs q) →
        (∀ ev ∈ (startInput add name e m tr evs).events, ev.isFailedAdd = false) →
        (∃ r, lookup (startInput add name e m tr evs).inputs name = some r ∧
          r.ir.name = e.ir.name ∧ Equals r.config e.config = true) ∧
        (∀ q, q ≠ name → lookup (startInput add name e m tr evs).inputs q = lookup inputs q) ∧
        IsMap (startInput add name e m tr evs).inputs ∧
        KeyedByFileName (startInput add name e m tr evs).inputs := by
      intro m evs hm' hk' hother hev
      rw [startInput_events] at hev
      rw [startInput_inputs]
      cases ha : add (tr ++ evs) e.ir with
      | some err =>
        have := hev (Event.addInputRunner e.ir (add (tr ++ evs) e.ir)) (by simp)
        rw [ha] at this
        cases this
      | none =>
        refine ⟨⟨e, ?_, rfl, hEq⟩, ?_, isMap_store hm' name e, keyed_store hk' he⟩
        · simp [lookup_store_self]
        · intro q hq
          simp only [Option.isSome_none, Bool.false_eq_true, if_false]
          rw [lookup_store_ne m e hq]
          exact hother q hq
    refine ⟨hno, ?_⟩
    cases hl : lookup inputs name with
    | none =>
      rw [processEntry_fresh o add false name e inputs tr err hf hl] at hadd ⊢
      exact hstart inputs [] hm hk (fun _ _ => rfl) hadd
    | some r =>
      by_cases hc : ((Equals r.config e.config && r.ir.name == e.ir.name) && !false) = true
      · have hc' : Equals r.config e.config = true ∧ r.ir.name = e.ir.name := by
          simpa using hc
        rw [processEntry_keep o add name e inputs tr err hf hl hc'.1 hc'.2]
        exact ⟨⟨r, hl, hc'.2, hc'.1⟩, fun _ _ => rfl, hm, hk⟩
      · have hc' : ((Equals r.config e.config && r.ir.name == e.ir.name) && !false) = false := by
          simpa using hc
        rw [processEntry_replace o add false name e inputs tr err hf hl hc'] at hadd ⊢
        exact hstart (delete inputs name) _ (isMap_delete hm name) (keyed_delete hk name)
          (fun q hq => lookup_delete_ne inputs hq) hadd

theorem activate_converged {o : RangeOrders} (ho : o.Valid) (add : AddOracle) :
    ∀ (L : List (String × FilePollingEntry)) (inputs : EntryMap) (tr : List Event)
      (err : Option String),
      (keys L).Nodup → KeyedByFileName L → IsMap inputs → KeyedByFileName inputs →
      (activate o add false L inputs tr err).ret = none →
      (∀ ev ∈ (activate o add false L inputs tr err).events, ev.isFailedAdd = false) →
      IsMap (activate o add false L inputs tr err).inputs ∧
      KeyedByFileName (activate o add false L inputs tr err).inputs ∧
      (∀ q, q ∉ keys L → lookup (activate o add false L inputs tr err).inputs q = lookup inputs q) ∧
      (∀ kv ∈ L, ∃ r, lookup (activate o add false L inputs tr err).inputs kv.1 = some r ∧
        r.ir.name = kv.2.ir.name ∧ Equals r.config kv.2.config = true) ∧
      (∀ kv ∈ L, ∀ q r, q ∉ keys L → lookup inputs q = some r → r.ir.name ≠ kv.2.ir.name) ∧
      (∀ kv ∈ L, ∀ kv' ∈ L, kv.2.ir.name = kv'.2.ir.name → kv.1 = kv'.1) := by
  intro L
  induction L with
  | nil =>
    intro inputs tr err _ _ hm hk _ _
    simp [activate, hm, hk]
  | cons x rest ih =>
    intro inputs tr err hnd hL hm hk hret hadd
    obtain ⟨name, e⟩ := x
    have he : e.fileName = name := hL (name, e) (List.mem_cons_self _ _)
    have hrest : KeyedByFileName rest := fun kv h => hL kv (List.mem_cons_of_mem _ h)
    simp only [keys, List.map_cons, List.nodup_cons] at hnd
    obtain ⟨hname, hndr⟩ := hnd
    simp only [activate] at hret hadd ⊢
    cases hr : (processEntry o add false name e inputs tr err).returns with
    | true =>
      obtain ⟨_, _, herr⟩ := processEntry_returns o add false name e inputs tr err hr
      simp [hr, herr] at hret
    | false =>
      simp only [hr, Bool.false_eq_true, if_false] at hret hadd ⊢
      obtain ⟨evs, hevs⟩ := activate_trace_mono o add false rest
        (processEntry o add false name e inputs tr err).inputs
        (tr ++ (processEntry o add false name e inputs tr err).events)
        (processEntry o add false name e inputs tr err).err
      have hadd1 : ∀ ev ∈ (processEntry o add false name e inputs tr err).events,
          ev.isFailedAdd = false := by
        intro ev hev
        apply hadd
        rw [hevs]
        simp [hev]
      obtain ⟨hno, ⟨r0, hr0, hr0n, hr0e⟩, hother, hm1, hk1⟩ :=
        processEntry_converged ho add name e inputs tr err he hm hk hr hadd1
      obtain ⟨i1, i2, i3, i4, i5, i6⟩ := ih _ _ _ hndr hrest hm1 hk1 hret hadd
      have hnameR : name ∉ keys rest := hname
      refine ⟨i1, i2, ?_, ?_, ?_, ?_⟩
      · intro q hq
        simp only [keys, List.map_cons, List.mem_cons, not_or] at hq
        rw [i3 q hq.2, hother q hq.1]
      · intro kv hkv
        rcases List.mem_cons.1 hkv with h | h
        · subst h
          exact ⟨r0, by rw [i3 name hnameR]; exact hr0, hr0n, hr0e⟩
        · exact i4 kv h
      · intro kv hkv q r hq hl hn
        simp only [keys, List.map_cons, List.mem_cons, not_or] at hq
        rcases List.mem_cons.1 hkv with h | h
        · subst h
          exact hq.1 (hno (q, r) (mem_of_lookup hl) hn)
        · exact i5 kv h q r hq.2 (by rw [hother q hq.1]; exact hl) hn
      · intro a ha b hb hab
        rcases List.mem_cons.1 ha with ha | ha <;> rcases List.mem_cons.1 hb with hb | hb
        · rw [ha, hb]
        · subst ha
          exact absurd (hr0n.trans hab) (i5 b hb name r0 hnameR hr0)
        · subst hb
          exact absurd (hr0n.trans hab.symm) (i5 a ha name r0 hnameR hr0)
        · exact i6 a ha b hb hab

theorem activate_unchanged {o : RangeOrders} (ho : o.Valid) (add : AddOracle) :
    ∀ (L : List (String × FilePollingEntry)) (inputs : EntryMap) (tr : List Event)
      (err : Option String),
      (∀ kv ∈ L, (∀ kv' ∈ inputs, kv.2.ir.name = kv'.2.ir.name → kv.2.fileName = kv'.2.fileName) ∧
        ∃ r, lookup inputs kv.1 = some r ∧ Equals r.config kv.2.config = true ∧
          r.ir.name = kv.2.ir.name) →
      activate o add false L inputs tr err = { inputs := inputs, events := tr, ret := err } := by
  intro L
  induction L with
  | nil => intro inputs tr err _; rfl
  | cons x rest ih =>
    intro inputs tr err h
    obtain ⟨name, e⟩ := x
    obtain ⟨h1, r, hl, heq, hn⟩ := h (name, e) (List.mem_cons_self _ _)
    have hf : findDuplicate e (o.scan name inputs) = none :=
      findDuplicate_of_none_exists ho h1
    simp only [activate, processEntry_keep o add name e inputs tr err hf hl heq hn,
      List.append_nil, Bool.false_eq_true, if_false]
    exact ih inputs tr err (fun kv hkv => h kv (List.mem_cons_of_mem _ hkv))

theorem removeStale_unchanged (specified : EntryMap) :
    ∀ (order : List (String × FilePollingEntry)) (inputs : EntryMap) (tr : List Event),
      (∀ kv ∈ order, (lookup specified kv.1).isSome = true) →
      removeStale specified order inputs tr = (inputs, tr) := by
  intro order
  induction order with
  | nil => intro inputs tr _; rfl
  | cons x rest ih =>
    intro inputs tr h
    obtain ⟨name, entry⟩ := x
    have h1 : (lookup specified name).isNone = false := by
      have := h (name, entry) (List.mem_cons_self _ _)
      cases hl : lookup specified name <;> simp [hl] at this ⊢
    simp only [removeStale, h1, Bool.false_eq_true, if_false]
    exact ih inputs tr (fun kv hkv => h kv (List.mem_cons_of_mem _ hkv))
theorem lookup_filter_key (f : String → Bool) (m : EntryMap) (q : String) :
    lookup (m.filter (fun kv => f kv.1)) q = if f q then lookup m q else none := by
  induction m with
  | nil => simp [lookup]
  | cons x rest ih =>
    obtain ⟨a, b⟩ := x
    by_cases haq : a = q
    · subst haq
      cases hs : f a with
      | false =>
        simp only [List.filter_cons, hs, Bool.false_eq_true, if_false] at ih ⊢
        exact ih
      | true => simp [List.filter_cons, hs, lookup]
    · cases hs : f a with
      | true =>
        simp only [List.filter_cons, hs, if_true]
        have hb : (a == q) = false := by simpa using haq
        simp only [lookup, List.find?_cons, hb] at ih ⊢
        exact ih
      | false =>
        simp only [List.filter_cons, hs, Bool.false_eq_true, if_false]
        have hb : (a == q) = false := by simpa using haq
        simp only [lookup, List.find?_cons, hb] at ih ⊢
        exact ih

theorem lookup_filter_specified (specified inputs : EntryMap) (q : String) :
    lookup (inputs.filter (fun kv => (lookup specified kv.1).isSome)) q =
      if (lookup specified q).isSome then lookup inputs q else none :=
  lookup_filter_key (fun k => (lookup specified k).isSome) inputs q

theorem mem_keys_of_lookup {m : EntryMap} {k : String} {v : FilePollingEntry}
    (h : lookup m k = some v) : k ∈ keys m := by
  by_contra hc
  rw [← lookup_eq_none_iff] at hc
  rw [hc] at h
  cases h

theorem reconcile_converged {o : RangeOrders} (ho : o.Valid) (add : AddOracle)
    (specified inputs : EntryMap) (tr : List Event)
    (hSm : IsMap specified) (hS : KeyedByFileName specified)
    (hIm : IsMap inputs) (hI : KeyedByFileName inputs)
    (hret : (reconcile o add specified inputs tr).ret = none)
    (hadd : ∀ ev ∈ (reconcile o add specified inputs tr).events, ev.isFailedAdd = false) :
    IsMap (reconcile o add specified inputs tr).inputs ∧
      KeyedByFileName (reconcile o add specified inputs tr).inputs ∧
      (∀ p, lookup specified p = none → lookup (reconcile o add specified inputs tr).inputs p = none) ∧
      (∀ p e, lookup specified p = some e →
        ∃ r, lookup (reconcile o add specified inputs tr).inputs p = some r ∧
          r.ir.name = e.ir.name ∧ Equals r.config e.config = true) ∧
      (∀ p p' e e', lookup specified p = some e → lookup specified p' = some e' →
        e.ir.name = e'.ir.name → p = p') := by
  rw [reconcile_eq ho] at hret hadd ⊢
  have hperm := ho.2.1 specified
  have hkeys : ∀ q, q ∈ keys (o.specified specified) ↔ q ∈ keys specified := by
    intro q
    exact (List.Perm.map Prod.fst hperm).mem_iff
  have hnd : (keys (o.specified specified)).Nodup :=
    (List.Perm.map Prod.fst hperm).nodup_iff.2 hSm
  have hLk : KeyedByFileName (o.specified specified) := fun kv h => hS kv (hperm.mem_iff.1 h)
  have f1 : IsMap (inputs.filter (fun kv => (lookup specified kv.1).isSome)) :=
    List.Nodup.sublist (List.Sublist.map _ (List.filter_sublist inputs)) hIm
  have f2 : KeyedByFileName (inputs.filter (fun kv => (lookup specified kv.1).isSome)) :=
    fun kv h => hI kv (List.mem_filter.1 h).1
  obtain ⟨i1, i2, i3, i4, _, i6⟩ := activate_converged ho add (o.specified specified) _ _ _
    hnd hLk f1 f2 hret hadd
  refine ⟨i1, i2, ?_, ?_, ?_⟩
  · intro p hp
    have hpk : p ∉ keys (o.specified specified) := by
      rw [hkeys]; exact lookup_eq_none_iff.1 hp
    rw [i3 p hpk, lookup_filter_specified, hp]
    rfl
  · intro p e hp
    exact i4 (p, e) (hperm.mem_iff.2 (mem_of_lookup hp))
  · intro p p' e e' hp hp' hn
    exact i6 (p, e) (hperm.mem_iff.2 (mem_of_lookup hp)) (p', e')
      (hperm.mem_iff.2 (mem_of_lookup hp')) hn
theorem storedOrders_valid : storedOrders.Valid :=
  ⟨fun m => List.Perm.refl m, fun m => List.Perm.refl m, fun _ m => List.Perm.refl m⟩

theorem reversedOrders_valid : reversedOrders.Valid :=
  ⟨fun m => List.reverse_perm m, fun m => List.reverse_perm m, fun _ m => List.reverse_perm m⟩

/-! ## C1 -/

/-- C1: idempotence. For every desired set and running set keyed by `fileName` and all
visiting orders, if one cycle returns no error and none of its `AddInputRunner` calls
failed, then a second cycle over a desired set with the same paths, runner names and
`FilePath`/`TickerInterval` adds no event to the trace (no call, no log), returns nil and
leaves `lsdi.inputs` as it is. -/
theorem loadInputs_idempotent (o o' : RangeOrders) (ho : o.Valid) (ho' : o'.Valid)
    (add add' : AddOracle) (specified specified' inputs : EntryMap) (tr tr' : List Event)
    (hSm : IsMap specified) (hS : KeyedByFileName specified)
    (hSm' : IsMap specified') (hS' : KeyedByFileName specified')
    (hIm : IsMap inputs) (hI : KeyedByFileName inputs)
    (hsame : SameDesired specified specified')
    (hret : (reconcile o add specified inputs tr).ret = none)
    (hadd : ∀ ev ∈ (reconcile o add specified inputs tr).events, ev.isFailedAdd = false) :
    reconcile o' add' specified' (reconcile o add specified inputs tr).inputs tr' =
      { inputs := (reconcile o add specified inputs tr).inputs, events := tr', ret := none } := by
  obtain ⟨c1, c2, c3, c4, c5⟩ :=
    reconcile_converged ho add specified inputs tr hSm hS hIm hI hret hadd
  generalize (reconcile o add specified inputs tr).inputs = I1 at c1 c2 c3 c4 c5 ⊢
  -- every entry of the second desired set has a counterpart in the first
  have hback : ∀ kv' ∈ specified', ∃ e, lookup specified kv'.1 = some e ∧
      e.ir.name = kv'.2.ir.name ∧ e.config.FilePath = kv'.2.config.FilePath ∧
      e.config.TickerInterval = kv'.2.config.TickerInterval := by
    intro kv' hkv'
    have h1 : signature kv' ∈ specified.map signature :=
      hsame.mem_iff.1 (List.mem_map_of_mem _ hkv')
    obtain ⟨kv, hkv, hsig⟩ := List.mem_map.1 h1
    obtain ⟨p, e⟩ := kv
    simp only [signature, Prod.mk.injEq] at hsig
    refine ⟨e, ?_, hsig.2.1, hsig.2.2.1, hsig.2.2.2⟩
    rw [← hsig.1]
    exact lookup_of_mem hSm hkv
  have hforth : ∀ kv ∈ specified, (lookup specified' kv.1).isSome = true := by
    intro kv hkv
    have h1 : signature kv ∈ specified'.map signature :=
      hsame.mem_iff.2 (List.mem_map_of_mem _ hkv)
    obtain ⟨kv', hkv', hsig⟩ := List.mem_map.1 h1
    obtain ⟨p', e'⟩ := kv'
    simp only [signature, Prod.mk.injEq] at hsig
    have := lookup_of_mem hSm' hkv'
    rw [hsig.1] at this
    simp [this]
  -- the running set holds exactly the paths of the desired set
  have hin : ∀ kv ∈ I1, ∃ e, lookup specified kv.1 = some e ∧ kv.2.ir.name = e.ir.name := by
    intro kv hkv
    have hl := lookup_of_mem c1 (show (kv.1, kv.2) ∈ I1 from hkv)
    cases hs : lookup specified kv.1 with
    | none => rw [c3 kv.1 hs] at hl; cases hl
    | some e =>
      obtain ⟨r, hr, hn, _⟩ := c4 kv.1 e hs
      rw [hl] at hr
      cases hr
      exact ⟨e, rfl, hn⟩
  simp only [reconcile]
  rw [removeStale_unchanged]
  · apply activate_unchanged ho'
    intro kv' hkv'
    have hmem := (ho'.2.1 specified').mem_iff.1 hkv'
    obtain ⟨e, he, hn, hf, ht⟩ := hback kv' hmem
    constructor
    · intro x hx hxn
      obtain ⟨ex, hex, hexn⟩ := hin x hx
      have : x.1 = kv'.1 := c5 x.1 kv'.1 ex e hex he (by rw [← hexn, ← hxn, hn])
      rw [c2 x hx, hS' kv' hmem, this]
    · obtain ⟨r, hr, hrn, hre⟩ := c4 kv'.1 e he
      refine ⟨r, hr, ?_, hrn.trans hn⟩
      rw [Equals_iff] at hre ⊢
      exact ⟨hre.1.trans hf, hre.2.trans ht⟩
  · intro kv hkv
    have hmem := (ho'.1 I1).mem_iff.1 hkv
    obtain ⟨e, he, _⟩ := hin kv hmem
    exact hforth (kv.1, e) (mem_of_lookup he)

/-- A cycle that removes a stale input, restarts a changed one and starts a new one, then a
second cycle over a rescan of the same files (fresh runners), visited in reverse. -/
theorem loadInputs_idempotent_witness :
    (reconcile storedOrders addAlwaysSucceeds
        [("a", sampleEntry 1 "x" "a" 5), ("b", sampleEntry 2 "y" "b" 5)]
        [("a", sampleEntry 7 "x" "a" 9), ("c", sampleEntry 8 "z" "c" 5)] []).events =
      [Event.removeInputRunner (sampleEntry 8 "z" "c" 5).ir, Event.logMessage "Removed: c",
       Event.removeInputRunner (sampleEntry 7 "x" "a" 9).ir, Event.logMessage "Removed: a",
       Event.addInputRunner (sampleEntry 1 "x" "a" 5).ir none, Event.logMessage "Added: a",
       Event.addInputRunner (sampleEntry 2 "y" "b" 5).ir none, Event.logMessage "Added: b"] ∧
    reconcile reversedOrders addAlwaysSucceeds
        [("a", sampleEntry 3 "x" "a" 5), ("b", sampleEntry 4 "y" "b" 5)]
        (reconcile storedOrders addAlwaysSucceeds
          [("a", sampleEntry 1 "x" "a" 5), ("b", sampleEntry 2 "y" "b" 5)]
          [("a", sampleEntry 7 "x" "a" 9), ("c", sampleEntry 8 "z" "c" 5)] []).inputs [] =
      { inputs := (reconcile storedOrders addAlwaysSucceeds
          [("a", sampleEntry 1 "x" "a" 5), ("b", sampleEntry 2 "y" "b" 5)]
          [("a", sampleEntry 7 "x" "a" 9), ("c", sampleEntry 8 "z" "c" 5)] []).inputs
        events := [], ret := none } :=
  ⟨by decide,
   loadInputs_idempotent storedOrders reversedOrders storedOrders_valid reversedOrders_valid
    addAlwaysSucceeds addAlwaysSucceeds _ _ _ [] []
    (by unfold IsMap; decide) (by unfold KeyedByFileName; decide)
    (by unfold IsMap; decide) (by unfold KeyedByFileName; decide)
    (by unfold IsMap; decide) (by unfold KeyedByFileName; decide)
    (by unfold SameDesired; decide) (by decide) (by decide)⟩
/-! ## C2 -/

/-- C2 fails as stated: two files swap their input names. Desired and running set each
have distinct names and are keyed by `fileName`, no `AddInputRunner` call fails, and yet
the cycle stops on the Duplicate Name error with the running set holding no entry for path
"b" and the old name under path "a". -/
theorem loadInputs_converges_counterexample :
    UniqueNames [("a", sampleEntry 1 "x" "a" 5), ("b", sampleEntry 2 "y" "b" 5)] ∧
    KeyedByFileName [("a", sampleEntry 1 "x" "a" 5), ("b", sampleEntry 2 "y" "b" 5)] ∧
    UniqueNames [("a", sampleEntry 3 "y" "a" 5), ("b", sampleEntry 4 "x" "b" 5)] ∧
    KeyedByFileName [("a", sampleEntry 3 "y" "a" 5), ("b", sampleEntry 4 "x" "b" 5)] ∧
    (∀ ev ∈ (reconcile storedOrders addAlwaysSucceeds
        [("a", sampleEntry 1 "x" "a" 5), ("b", sampleEntry 2 "y" "b" 5)]
        [("a", sampleEntry 3 "y" "a" 5), ("b", sampleEntry 4 "x" "b" 5)] []).events,
      ev.isFailedAdd = false) ∧
    reconcile storedOrders addAlwaysSucceeds
        [("a", sampleEntry 1 "x" "a" 5), ("b", sampleEntry 2 "y" "b" 5)]
        [("a", sampleEntry 3 "y" "a" 5), ("b", sampleEntry 4 "x" "b" 5)] [] =
      { inputs := [("a", sampleEntry 3 "y" "a" 5)]
        events := [Event.removeInputRunner (sampleEntry 4 "x" "b" 5).ir,
          Event.logMessage "Removed: b"]
        ret := some (duplicateNameError "x" "a") } := by
  refine ⟨?_, ?_, ?_, ?_, ?_, ?_⟩
  · unfold UniqueNames; decide
  · unfold KeyedByFileName; decide
  · unfold UniqueNames; decide
  · unfold KeyedByFileName; decide
  · decide
  · decide

/-- C2, amended: for every desired set and running set keyed by `fileName` (their names
pairwise distinct or not) and every visiting order, if the cycle returns no error and none
of its `AddInputRunner` calls failed, then afterwards `lsdi.inputs` holds one entry per
key, an entry under each path of the desired set with that desired entry's name,
`FilePath` and `TickerInterval`, and no entry under any other path. -/
theorem loadInputs_converges (o : RangeOrders) (ho : o.Valid) (add : AddOracle)
    (specified inputs : EntryMap) (tr : List Event)
    (hSm : IsMap specified) (hS : KeyedByFileName specified)
    (hIm : IsMap inputs) (hI : KeyedByFileName inputs)
    (hret : (reconcile o add specified inputs tr).ret = none)
    (hadd : ∀ ev ∈ (reconcile o add specified inputs tr).events, ev.isFailedAdd = false) :
    IsMap (reconcile o add specified inputs tr).inputs ∧
      (∀ p e, lookup specified p = some e →
        ∃ r, lookup (reconcile o add specified inputs tr).inputs p = some r ∧
          r.ir.name = e.ir.name ∧ r.config.FilePath = e.config.FilePath ∧
          r.config.TickerInterval = e.config.TickerInterval) ∧
      (∀ p, lookup specified p = none →
        lookup (reconcile o add specified inputs tr).inputs p = none) := by
  obtain ⟨c1, _, c3, c4, _⟩ :=
    reconcile_converged ho add specified inputs tr hSm hS hIm hI hret hadd
  refine ⟨c1, ?_, c3⟩
  intro p e hp
  obtain ⟨r, hr, hn, he⟩ := c4 p e hp
  rw [Equals_iff] at he
  exact ⟨r, hr, hn, he.1, he.2⟩

/-- A cycle that removes the stale "c", restarts the changed "a" and starts the new "b". -/
theorem loadInputs_converges_witness :
    (reconcile reversedOrders addAlwaysSucceeds
        [("a", sampleEntry 1 "x" "a" 5), ("b", sampleEntry 2 "y" "b" 5)]
        [("a", sampleEntry 7 "x" "a" 9), ("c", sampleEntry 8 "z" "c" 5)] []).inputs =
      [("a", sampleEntry 1 "x" "a" 5), ("b", sampleEntry 2 "y" "b" 5)] ∧
    (∀ p e, lookup [("a", sampleEntry 1 "x" "a" 5), ("b", sampleEntry 2 "y" "b" 5)] p = some e →
      ∃ r, lookup (reconcile reversedOrders addAlwaysSucceeds
          [("a", sampleEntry 1 "x" "a" 5), ("b", sampleEntry 2 "y" "b" 5)]
          [("a", sampleEntry 7 "x" "a" 9), ("c", sampleEntry 8 "z" "c" 5)] []).inputs p = some r ∧
        r.ir.name = e.ir.name ∧ r.config.FilePath = e.config.FilePath ∧
        r.config.TickerInterval = e.config.TickerInterval) :=
  ⟨by decide,
   (loadInputs_converges reversedOrders reversedOrders_valid addAlwaysSucceeds
    [("a", sampleEntry 1 "x" "a" 5), ("b", sampleEntry 2 "y" "b" 5)]
    [("a", sampleEntry 7 "x" "a" 9), ("c", sampleEntry 8 "z" "c" 5)] []
    (by unfold IsMap; decide) (by unfold KeyedByFileName; decide)
    (by unfold IsMap; decide) (by unfold KeyedByFileName; decide)
    (by decide) (by decide)).2.1⟩
/-! ## C4 -/

theorem activate_duplicate {o : RangeOrders} (ho : o.Valid) (add : AddOracle) (dups : Bool)
    (name : String) (e : FilePollingEntry)
    (inputs : EntryMap) (tr : List Event) (kv : String × FilePollingEntry)
    (hkv : kv ∈ inputs) (hdup : isDuplicateOf e kv) :
    ∃ kv' ∈ inputs, isDuplicateOf e kv' ∧ (IsMap inputs → UniqueNames inputs → kv' = kv) ∧
      ∀ rest err, activate o add dups ((name, e) :: rest) inputs tr err =
        { inputs := delete inputs kv'.1
          events := tr ++ [Event.removeInputRunner kv'.2.ir,
            Event.logMessage ("Removed: " ++ kv'.1)]
          ret := some (duplicateNameError kv'.2.ir.name name) } := by
  have hex : ∃ kv', findDuplicate e (o.scan name inputs) = some kv' :=
    findDuplicate_isSome ho hkv hdup
  obtain ⟨kv', hf⟩ := hex
  obtain ⟨hmem, hd⟩ := findDuplicate_some ho hf
  refine ⟨kv', hmem, hd, ?_, ?_⟩
  · intro hm hu
    have hk : kv'.1 = kv.1 := hu kv' hmem kv hkv (hd.1.symm.trans hdup.1)
    have h1 := lookup_of_mem hm (show (kv'.1, kv'.2) ∈ inputs from hmem)
    have h2 := lookup_of_mem hm (show (kv.1, kv.2) ∈ inputs from hkv)
    rw [hk, h2] at h1
    exact Prod.ext hk (Option.some.inj h1).symm
  · intro rest err
    simp only [activate, processEntry_duplicate o add dups name e inputs tr err hf, if_true]

theorem reconcile_two_duplicates {o : RangeOrders} (ho : o.Valid) (add : AddOracle)
    (hadd : ∀ t ir, add t ir = none)
    (p q : String) (e f : FilePollingEntry) (tr : List Event)
    (hpq : p ≠ q) (he : e.fileName = p) (hf : f.fileName = q) (hn : e.ir.name = f.ir.name) :
    (reconcile o add [(p, e), (q, f)] [] tr).inputs = [] ∧
      ((reconcile o add [(p, e), (q, f)] [] tr).ret = some (duplicateNameError e.ir.name p) ∨
       (reconcile o add [(p, e), (q, f)] [] tr).ret = some (duplicateNameError e.ir.name q)) := by
  -- two entries of one name, visited one after the other from an empty running set
  have key : ∀ (a b : String) (x y : FilePollingEntry) (t : List Event), a ≠ b →
      x.fileName = a → y.fileName = b → x.ir.name = y.ir.name →
      (activate o add false [(a, x), (b, y)] [] t none).inputs = [] ∧
      (activate o add false [(a, x), (b, y)] [] t none).ret =
        some (duplicateNameError x.ir.name b) := by
    intro a b x y t hab hx hy hxy
    have h0 : findDuplicate x (o.scan a []) = none :=
      findDuplicate_of_none_exists ho (fun kv hkv => by cases hkv)
    have h1 : processEntry o add false a x [] t none =
        { inputs := [(a, x)], events := [Event.addInputRunner x.ir none,
          Event.logMessage ("Added: " ++ a)], err := none, returns := false } := by
      rw [processEntry_fresh o add false a x [] t none h0 rfl]
      simp [startInput, hadd, store, delete]
    have hd : isDuplicateOf y (a, x) := ⟨hxy.symm, by rw [hx, hy]; exact fun h => hab h.symm⟩
    obtain ⟨kv', hmem, _, _, h2⟩ := activate_duplicate ho add false b y [(a, x)]
      (t ++ [Event.addInputRunner x.ir none, Event.logMessage ("Added: " ++ a)]) (a, x)
      (List.mem_singleton.2 rfl) hd
    have hkv' : kv' = (a, x) := List.mem_singleton.1 hmem
    subst hkv'
    have h3 := h2 [] none
    simp only [activate, h1, Bool.false_eq_true, if_false] at h3 ⊢
    rw [h3]
    simp [delete]
  have hperm := ho.2.1 [(p, e), (q, f)]
  have hlen : (o.specified [(p, e), (q, f)]).length = 2 := hperm.length_eq
  have hnd : (o.specified [(p, e), (q, f)]).Nodup := by
    apply hperm.nodup_iff.2
    simp [hpq]
  have hstale : o.stale [] = [] := List.Perm.eq_nil (ho.1 [])
  simp only [reconcile, hstale, removeStale]
  match hL : o.specified [(p, e), (q, f)], hlen, hnd with
  | [u, v], _, hnd' =>
    have hu : u ∈ [(p, e), (q, f)] := hperm.mem_iff.1 (by rw [hL]; simp)
    have hv : v ∈ [(p, e), (q, f)] := hperm.mem_iff.1 (by rw [hL]; simp)
    have huv : u ≠ v := by
      intro h; simp [h] at hnd'
    simp only [List.mem_cons, List.mem_singleton, List.not_mem_nil, or_false] at hu hv
    rcases hu with hu | hu <;> rcases hv with hv | hv
    · exact absurd (hu.trans hv.symm) huv
    · subst hu; subst hv
      obtain ⟨k1, k2⟩ := key p q e f tr hpq he hf hn
      exact ⟨k1, Or.inr k2⟩
    · subst hu; subst hv
      obtain ⟨k1, k2⟩ := key q p f e tr (fun h => hpq h.symm) hf he hn.symm
      exact ⟨k1, Or.inl (by rw [k2, hn])⟩
    · exact absurd (hu.trans hv.symm) huv

/-- C4: conflict handling. When the loop over the desired set reaches an entry
`(name, e)` while some running entry `kv` has the name of `e` and another `fileName`, then
for one such running entry `kv'` (which is `kv` itself when the running set has unique
names) the cycle ends there: the only events added are `RemoveInputRunner` on `kv'` and the
"Removed" log, `kv'` is deleted from `lsdi.inputs`, the Duplicate Name error naming the name
of `kv'` and the path `name` is returned, and the result does not depend on the remaining
desired entries `rest`. In particular, from an empty running set and a desired set of two
entries of one name under different paths, with every start succeeding, the cycle returns
that error for one of the two paths and `lsdi.inputs` ends empty. -/
theorem loadInputs_duplicate_name (o : RangeOrders) (ho : o.Valid) (add : AddOracle)
    (dups : Bool) (name : String) (e : FilePollingEntry) (inputs : EntryMap) (tr : List Event)
    (kv : String × FilePollingEntry) (hkv : kv ∈ inputs) (hdup : isDuplicateOf e kv) :
    (∃ kv' ∈ inputs, isDuplicateOf e kv' ∧ (IsMap inputs → UniqueNames inputs → kv' = kv) ∧
      ∀ rest err, activate o add dups ((name, e) :: rest) inputs tr err =
        { inputs := delete inputs kv'.1
          events := tr ++ [Event.removeInputRunner kv'.2.ir,
            Event.logMessage ("Removed: " ++ kv'.1)]
          ret := some (duplicateNameError kv'.2.ir.name name) }) ∧
    (∀ (p q : String) (f g : FilePollingEntry), p ≠ q → f.fileName = p → g.fileName = q →
      f.ir.name = g.ir.name →
      (reconcile o addAlwaysSucceeds [(p, f), (q, g)] [] tr).inputs = [] ∧
      ((reconcile o addAlwaysSucceeds [(p, f), (q, g)] [] tr).ret =
          some (duplicateNameError f.ir.name p) ∨
       (reconcile o addAlwaysSucceeds [(p, f), (q, g)] [] tr).ret =
          some (duplicateNameError f.ir.name q))) := by
  constructor
  · exact activate_duplicate ho add dups name e inputs tr kv hkv hdup
  · intro p q f g hpq hf hg hn
    exact reconcile_two_duplicates ho addAlwaysSucceeds (fun _ _ => rfl) p q f g tr hpq hf hg hn
/-- The running input "x" of file "a" meets the desired entry "x" of file "b". -/
theorem loadInputs_duplicate_name_witness :
    (∀ rest err, activate storedOrders addAlwaysSucceeds false
        (("b", sampleEntry 2 "x" "b" 5) :: rest) [("a", sampleEntry 1 "x" "a" 5)] [] err =
      { inputs := []
        events := [Event.removeInputRunner (sampleEntry 1 "x" "a" 5).ir,
          Event.logMessage "Removed: a"]
        ret := some "Duplicate Name: Input with name [x] already exists. Not loading input file: b" }) ∧
    (reconcile storedOrders addAlwaysSucceeds
      [("a", sampleEntry 1 "x" "a" 5), ("b", sampleEntry 2 "x" "b" 5)] [] []).inputs = [] := by
  obtain ⟨⟨kv', hmem, _, _, hact⟩, h2⟩ :=
    loadInputs_duplicate_name storedOrders storedOrders_valid addAlwaysSucceeds false "b"
      (sampleEntry 2 "x" "b" 5) [("a", sampleEntry 1 "x" "a" 5)] []
      ("a", sampleEntry 1 "x" "a" 5) (by decide) (by unfold isDuplicateOf; decide)
  have hk : kv' = ("a", sampleEntry 1 "x" "a" 5) := List.mem_singleton.1 hmem
  subst hk
  refine ⟨fun rest err => ?_, (h2 "a" "b" (sampleEntry 1 "x" "a" 5) (sampleEntry 2 "x" "b" 5)
    (by decide) rfl rfl rfl).1⟩
  rw [hact rest err]
  decide

/-! ## C8 -/

theorem removed_ne_added (a b : String) : "Removed: " ++ a ≠ "Added: " ++ b := by
  intro h
  have h1 := congrArg String.data h
  simp at h1

/-- C8: a failed start leaves no partial state. If the iteration for the desired entry
`(name, e)` contains an `AddInputRunner` call on the runner of `e` that returned the error
`err`, then after the iteration `lsdi.inputs` has no entry under `name` (an older version,
if there was one, has been removed), the events of the iteration end with that call and
the `LogError` "creating input ...", after at most the removal of the older version, no
"Added" message for `name` is logged, the iteration does not return, and the loop goes on
with the remaining desired entries, the named result `err` of `loadInputs` holding the
start error. -/
theorem loadInputs_start_failure (o : RangeOrders) (add : AddOracle) (name : String)
    (e : FilePollingEntry) (rest : List (String × FilePollingEntry)) (inputs : EntryMap)
    (tr : List Event) (err0 : Option String) (err : String)
    (hfail : Event.addInputRunner e.ir (some err) ∈
      (processEntry o add false name e inputs tr err0).events) :
    lookup (processEntry o add false name e inputs tr err0).inputs name = none ∧
    (∃ pre, (pre = [] ∨ ∃ r, lookup inputs name = some r ∧
        pre = [Event.removeInputRunner r.ir, Event.logMessage ("Removed: " ++ name)]) ∧
      (processEntry o add false name e inputs tr err0).events =
        pre ++ [Event.addInputRunner e.ir (some err),
          Event.logError ("creating input '" ++ name ++ "': " ++ err)]) ∧
    Event.logMessage ("Added: " ++ name) ∉ (processEntry o add false name e inputs tr err0).events ∧
    (processEntry o add false name e inputs tr err0).returns = false ∧
    (processEntry o add false name e inputs tr err0).err = some err ∧
    activate o add false ((name, e) :: rest) inputs tr err0 =
      activate o add false rest (processEntry o add false name e inputs tr err0).inputs
        (tr ++ (processEntry o add false name e inputs tr err0).events) (some err) := by
  -- the start of the new entry, which fails
  have hstart : ∀ (m : EntryMap) (evs : List Event), lookup m name = none →
      (∀ ev ∈ evs, ev.isAdd = false) → Event.logMessage ("Added: " ++ name) ∉ evs →
      Event.addInputRunner e.ir (some err) ∈ (startInput add name e m tr evs).events →
      lookup (startInput add name e m tr evs).inputs name = none ∧
      (startInput add name e m tr evs).events =
        evs ++ [Event.addInputRunner e.ir (some err),
          Event.logError ("creating input '" ++ name ++ "': " ++ err)] ∧
      Event.logMessage ("Added: " ++ name) ∉ (startInput add name e m tr evs).events ∧
      (startInput add name e m tr evs).returns = false ∧
      (startInput add name e m tr evs).err = some err := by
    intro m evs hm hevs hnot hin
    rw [startInput_events] at hin
    have hres : add (tr ++ evs) e.ir = some err := by
      simp only [List.mem_append, List.mem_cons, List.mem_singleton, List.not_mem_nil,
        or_false] at hin
      rcases hin with h | h | h
      · have := hevs _ h
        cases this
      · injection h with _ h2
        exact h2.symm
      · cases hr : add (tr ++ evs) e.ir <;> rw [hr] at h <;> cases h
    rw [startInput_inputs, startInput_events, startInput_returns, startInput_err, hres]
    refine ⟨by simpa using hm, rfl, ?_, rfl, rfl⟩
    intro h
    rcases List.mem_append.1 h with h | h
    · exact hnot h
    · simp at h
  have hall : lookup (processEntry o add false name e inputs tr err0).inputs name = none ∧
      (∃ pre, (pre = [] ∨ ∃ r, lookup inputs name = some r ∧
          pre = [Event.removeInputRunner r.ir, Event.logMessage ("Removed: " ++ name)]) ∧
        (processEntry o add false name e inputs tr err0).events =
          pre ++ [Event.addInputRunner e.ir (some err),
            Event.logError ("creating input '" ++ name ++ "': " ++ err)]) ∧
      Event.logMessage ("Added: " ++ name) ∉
        (processEntry o add false name e inputs tr err0).events ∧
      (processEntry o add false name e inputs tr err0).returns = false ∧
      (processEntry o add false name e inputs tr err0).err = some err := by
    cases hf : findDuplicate e (o.scan name inputs) with
    | some kv =>
      rw [processEntry_duplicate o add false name e inputs tr err0 hf] at hfail
      simp at hfail
    | none =>
      cases hl : lookup inputs name with
      | none =>
        rw [processEntry_fresh o add false name e inputs tr err0 hf hl] at hfail ⊢
        obtain ⟨s1, s2, s3, s4, s5⟩ := hstart inputs [] hl (by simp) (by simp) hfail
        exact ⟨s1, ⟨[], Or.inl rfl, s2⟩, s3, s4, s5⟩
      | some r =>
        by_cases hc : ((Equals r.config e.config && r.ir.name == e.ir.name) && !false) = true
        · have hc' : Equals r.config e.config = true ∧ r.ir.name = e.ir.name := by
            simpa using hc
          rw [processEntry_keep o add name e inputs tr err0 hf hl hc'.1 hc'.2] at hfail
          simp at hfail
        · have hc' : ((Equals r.config e.config && r.ir.name == e.ir.name) && !false) = false := by
            simpa using hc
          rw [processEntry_replace o add false name e inputs tr err0 hf hl hc'] at hfail ⊢
          obtain ⟨s1, s2, s3, s4, s5⟩ := hstart (delete inputs name)
            [Event.removeInputRunner r.ir, Event.logMessage ("Removed: " ++ name)]
            (lookup_delete_self inputs name)
            (by intro ev hev; simp at hev; rcases hev with h | h <;> subst h <;> rfl)
            (by
              intro h
              rcases List.mem_cons.1 h with h | h
              · cases h
              · rw [List.mem_singleton] at h
                injection h with h
                exact removed_ne_added name name h.symm)
            hfail
          exact ⟨s1, ⟨_, Or.inr ⟨r, rfl, rfl⟩, s2⟩, s3, s4, s5⟩
  obtain ⟨a1, a2, a3, a4, a5⟩ := hall
  refine ⟨a1, a2, a3, a4, a5, ?_⟩
  simp only [activate, a4, a5, Bool.false_eq_true, if_false]

/-- The changed input of file "a" fails to start; the loop goes on with file "b", whose
start fails too, and the cycle returns that last start error. -/
theorem loadInputs_start_failure_witness :
    lookup (processEntry storedOrders (addAlwaysFails "boom") false "a" (sampleEntry 1 "x" "a" 5)
        [("a", sampleEntry 7 "x" "a" 9)] [] none).inputs "a" = none ∧
    activate storedOrders (addAlwaysFails "boom") false
        [("a", sampleEntry 1 "x" "a" 5), ("b", sampleEntry 2 "y" "b" 5)]
        [("a", sampleEntry 7 "x" "a" 9)] [] none =
      { inputs := []
        events := [Event.removeInputRunner (sampleEntry 7 "x" "a" 9).ir,
          Event.logMessage "Removed: a",
          Event.addInputRunner (sampleEntry 1 "x" "a" 5).ir (some "boom"),
          Event.logError "creating input 'a': boom",
          Event.addInputRunner (sampleEntry 2 "y" "b" 5).ir (some "boom"),
          Event.logError "creating input 'b': boom"]
        ret := some "boom" } :=
  ⟨(loadInputs_start_failure storedOrders (addAlwaysFails "boom") "a" (sampleEntry 1 "x" "a" 5)
      [("b", sampleEntry 2 "y" "b" 5)] [("a", sampleEntry 7 "x" "a" 9)] [] none "boom"
      (by decide)).1, by decide⟩
/-! ## The walk -/

theorem WalkState.Extends.refl (st : WalkState) : st.Extends st :=
  ⟨⟨[], by simp, fun _ h => by cases h⟩, id, id⟩

theorem WalkState.Extends.trans {a b c : WalkState} (h1 : a.Extends b) (h2 : b.Extends c) :
    a.Extends c := by
  obtain ⟨⟨e1, t1, l1⟩, m1, k1⟩ := h1
  obtain ⟨⟨e2, t2, l2⟩, m2, k2⟩ := h2
  refine ⟨⟨e1 ++ e2, by rw [t2, t1, List.append_assoc], ?_⟩, m2 ∘ m1, k2 ∘ k1⟩
  intro ev hev
  rcases List.mem_append.1 hev with h | h
  · exact l1 ev h
  · exact l2 ev h

theorem WalkState.extends_logError (st : WalkState) (msg : String) :
    st.Extends (st.logError msg) :=
  ⟨⟨[Event.logError msg], rfl, fun _ h => ⟨msg, List.mem_singleton.1 h⟩⟩, id, id⟩

theorem logDirWalkFunc_ok (path : String) (info : Option FileInfo) (err : Option String)
    (st : WalkState) (r : WalkState × Option WalkError)
    (h : logDirWalkFunc path info err st = some r) :
    r.2 = none ∧ st.Extends r.1 := by
  unfold logDirWalkFunc at h
  split at h
  · cases h; exact ⟨rfl, st.extends_logError _⟩
  · split at h
    · cases h; exact ⟨rfl, WalkState.Extends.refl st⟩
    · split at h
      · cases h; exact ⟨rfl, WalkState.Extends.refl st⟩
      · split at h
        · cases h
        · cases h; exact ⟨rfl, st.extends_logError _⟩
        · split at h
          · cases h; exact ⟨rfl, st.extends_logError _⟩
          · split at h
            · cases h; exact ⟨rfl, st.extends_logError _⟩
            · cases h
              refine ⟨rfl, ⟨[], by simp, fun _ h => by cases h⟩, ?_, ?_⟩
              · intro h; exact isMap_store h _ _
              · intro h; exact keyed_store h rfl

mutual
theorem walk_ok : ∀ (node : FsNode) (path : String) (st : WalkState)
    (r : WalkState × Option WalkError),
    walk logDirWalkFunc path node st = some r → r.2 = none ∧ st.Extends r.1
  | .missing _ err, path, st, r => by
    rw [walk]
    exact logDirWalkFunc_ok path none (some err) st r
  | .file n d, path, st, r => by
    rw [walk]
    exact logDirWalkFunc_ok path _ none st r
  | .dir n readErr children, path, st, r => by
    rw [walk]
    intro h
    cases hw : logDirWalkFunc path (some (FsNode.dir n readErr children).info) readErr st with
    | none => rw [hw] at h; cases h
    | some r1 =>
      rw [hw] at h
      have h1 := logDirWalkFunc_ok path _ readErr st r1 hw
      simp only at h
      split at h
      · cases h; exact h1
      · have h2 := walkNames_ok children path r1.1 r h
        exact ⟨h2.1, h1.2.trans h2.2⟩
theorem walkNames_ok : ∀ (children : FsList) (path : String) (st : WalkState)
    (r : WalkState × Option WalkError),
    walkNames logDirWalkFunc path children st = some r → r.2 = none ∧ st.Extends r.1
  | .nil, path, st, r => by
    rw [walkNames]
    intro h
    cases h
    exact ⟨rfl, WalkState.Extends.refl st⟩
  | .cons (.missing name err) rest, path, st, r => by
    rw [walkNames]
    intro h
    cases hw : logDirWalkFunc (Join path name) none (some err) st with
    | none => rw [hw] at h; cases h
    | some r1 =>
      rw [hw] at h
      have h1 := logDirWalkFunc_ok (Join path name) none (some err) st r1 hw
      simp only [h1.1, Option.isSome_none, Bool.false_and, Bool.false_eq_true, if_false] at h
      have h2 := walkNames_ok rest path r1.1 r h
      exact ⟨h2.1, h1.2.trans h2.2⟩
  | .cons (.file name d) rest, path, st, r => by
    rw [walkNames]
    intro h
    cases hw : walk logDirWalkFunc (Join path name) (.file name d) st with
    | none => rw [hw] at h; cases h
    | some r1 =>
      rw [hw] at h
      have h1 := walk_ok (.file name d) (Join path name) st r1 hw
      simp only [h1.1, Option.isSome_none, Bool.false_eq_true, if_false] at h
      have h2 := walkNames_ok rest path r1.1 r h
      exact ⟨h2.1, h1.2.trans h2.2⟩
  | .cons (.dir name readErr children) rest, path, st, r => by
    rw [walkNames]
    intro h
    cases hw : walk logDirWalkFunc (Join path name) (.dir name readErr children) st with
    | none => rw [hw] at h; cases h
    | some r1 =>
      rw [hw] at h
      have h1 := walk_ok (.dir name readErr children) (Join path name) st r1 hw
      simp only [h1.1, Option.isSome_none, Bool.false_and, Bool.false_eq_true, if_false] at h
      have h2 := walkNames_ok rest path r1.1 r h
      exact ⟨h2.1, h1.2.trans h2.2⟩
end

theorem Walk_ok (root : String) (node : FsNode) (st : WalkState)
    (r : WalkState × Option WalkError) (h : Walk root node logDirWalkFunc st = some r) :
    r.2 = none ∧ st.Extends r.1 := by
  unfold Walk at h
  cases hw : walk logDirWalkFunc root node st with
  | none => rw [hw] at h; cases h
  | some r1 =>
    rw [hw] at h
    have h1 := walk_ok node root st r1 hw
    simp only [h1.1] at h
    simp at h
    rw [← h]
    exact h1

theorem Walk_eq_walk (root : String) (node : FsNode) (st : WalkState) :
    Walk root node logDirWalkFunc st = walk logDirWalkFunc root node st := by
  unfold Walk
  cases hw : walk logDirWalkFunc root node st with
  | none => rfl
  | some r1 =>
    have h1 := walk_ok node root st r1 hw
    simp [h1.1]

theorem loadInputs_eq (o : RangeOrders) (add : AddOracle) (logDir : String) (root : FsNode)
    (inputs : EntryMap) (w : WalkState × Option WalkError)
    (hw : Walk logDir root logDirWalkFunc { specified := [], trace := [] } = some w) :
    loadInputs o add logDir root inputs =
      some (reconcile o add w.1.specified inputs w.1.trace) := by
  unfold loadInputs
  simp only [hw, (Walk_ok logDir root _ w hw).1]

theorem loadInputs_some (o : RangeOrders) (add : AddOracle) (logDir : String) (root : FsNode)
    (inputs : EntryMap) (s : Step) (h : loadInputs o add logDir root inputs = some s) :
    ∃ w, Walk logDir root logDirWalkFunc { specified := [], trace := [] } = some w ∧
      s = reconcile o add w.1.specified inputs w.1.trace := by
  cases hw : Walk logDir root logDirWalkFunc { specified := [], trace := [] } with
  | none => simp [loadInputs, hw] at h
  | some w =>
    rw [loadInputs_eq o add logDir root inputs w hw] at h
    exact ⟨w, rfl, (Option.some.inj h).symm⟩

/-! ## The walk does not panic when every section can be probed -/

theorem selectSection_isSome :
    ∀ (ss : List Section) (acc : Option (Section × String)),
      ss.all (fun conf => conf.probeErr.isNone) = true → (selectSection ss acc).isSome = true := by
  intro ss
  induction ss with
  | nil => intro acc _; rfl
  | cons conf rest ih =>
    intro acc h
    simp only [List.all_cons, Bool.and_eq_true] at h
    have hp : conf.probeErr = none := by
      cases hc : conf.probeErr with
      | none => rfl
      | some e => rw [hc] at h; simp at h
    have hg : ∃ t, getConfigFileInfo conf = some t := by
      simp only [getConfigFileInfo, hp]
      split <;> exact ⟨_, rfl⟩
    obtain ⟨⟨confName, confType, confCat⟩, hg⟩ := hg
    simp only [selectSection, hg]
    split <;> exact ih _ h.2

theorem loadFilePollingFile_isSome (d : Decoded) (h : d.probesOk = true) :
    (loadFilePollingFile d).isSome = true := by
  cases d with
  | failure err => rfl
  | sections ss =>
    have h1 := selectSection_isSome ss none h
    simp only [loadFilePollingFile]
    cases hs : selectSection ss none with
    | none => rw [hs] at h1; cases h1
    | some acc =>
      cases acc with
      | none => rfl
      | some p =>
        obtain ⟨conf, path⟩ := p
        simp only
        cases conf.newMakerErr <;> rfl

theorem logDirWalkFunc_isSome (path : String) (info : Option FileInfo) (err : Option String)
    (st : WalkState) (h : ∀ i, info = some i → i.decoded.probesOk = true) :
    (logDirWalkFunc path info err st).isSome = true := by
  unfold logDirWalkFunc
  split
  · rfl
  · split
    · rfl
    · rename_i i
      split
      · rfl
      · have h1 := loadFilePollingFile_isSome i.decoded (h i rfl)
        split
        · rename_i hl; rw [hl] at h1; cases h1
        · rfl
        · split
          · rfl
          · split <;> rfl

mutual
theorem walk_isSome : ∀ (node : FsNode) (path : String) (st : WalkState),
    node.probesOk = true → (walk logDirWalkFunc path node st).isSome = true
  | .missing _ err, path, st, _ => by
    rw [walk]
    exact logDirWalkFunc_isSome path none (some err) st (fun i hi => by cases hi)
  | .file n d, path, st, h => by
    rw [walk]
    apply logDirWalkFunc_isSome
    intro i hi
    cases hi
    simpa [FsNode.probesOk, FsNode.info] using h
  | .dir n readErr children, path, st, h => by
    rw [walk]
    have h1 := logDirWalkFunc_isSome path (some (FsNode.dir n readErr children).info) readErr st
      (fun i hi => by cases hi; rfl)
    cases hw : logDirWalkFunc path (some (FsNode.dir n readErr children).info) readErr st with
    | none => rw [hw] at h1; cases h1
    | some r1 =>
      simp only
      split
      · rfl
      · exact walkNames_isSome children path r1.1 (by simpa [FsNode.probesOk] using h)
theorem walkNames_isSome : ∀ (children : FsList) (path : String) (st : WalkState),
    children.probesOk = true → (walkNames logDirWalkFunc path children st).isSome = true
  | .nil, path, st, _ => by
    rw [walkNames]
    rfl
  | .cons (.missing name err) rest, path, st, h => by
    rw [walkNames]
    have h1 := logDirWalkFunc_isSome (Join path name) none (some err) st
      (fun i hi => by cases hi)
    cases hw : logDirWalkFunc (Join path name) none (some err) st with
    | none => rw [hw] at h1; cases h1
    | some r1 =>
      simp only
      split
      · rfl
      · exact walkNames_isSome rest path r1.1
          (by simp only [FsList.probesOk, Bool.and_eq_true] at h; exact h.2)
  | .cons (.file name d) rest, path, st, h => by
    rw [walkNames]
    simp only [FsList.probesOk, Bool.and_eq_true] at h
    have h1 := walk_isSome (.file name d) (Join path name) st h.1
    cases hw : walk logDirWalkFunc (Join path name) (.file name d) st with
    | none => rw [hw] at h1; cases h1
    | some r1 =>
      simp only
      split
      · rfl
      · exact walkNames_isSome rest path r1.1 h.2
  | .cons (.dir name readErr children) rest, path, st, h => by
    rw [walkNames]
    simp only [FsList.probesOk, Bool.and_eq_true] at h
    have h1 := walk_isSome (.dir name readErr children) (Join path name) st h.1
    cases hw : walk logDirWalkFunc (Join path name) (.dir name readErr children) st with
    | none => rw [hw] at h1; cases h1
    | some r1 =>
      simp only
      split
      · rfl
      · exact walkNames_isSome rest path r1.1 h.2
end

theorem loadInputs_isSome (o : RangeOrders) (add : AddOracle) (logDir : String) (root : FsNode)
    (inputs : EntryMap) (h : root.probesOk = true) :
    ∃ s, loadInputs o add logDir root inputs = some s := by
  have h1 := walk_isSome root logDir { specified := [], trace := [] } h
  rw [← Walk_eq_walk] at h1
  cases hw : Walk logDir root logDirWalkFunc { specified := [], trace := [] } with
  | none => rw [hw] at h1; cases h1
  | some w => exact ⟨_, loadInputs_eq o add logDir root inputs w hw⟩
/-! ## C7 -/

theorem staleEvents_mem (specified : EntryMap) (order : List (String × FilePollingEntry))
    (kv : String × FilePollingEntry) (hkv : kv ∈ order) (hs : lookup specified kv.1 = none) :
    Event.removeInputRunner kv.2.ir ∈ staleEvents specified order ∧
      Event.logMessage ("Removed: " ++ kv.1) ∈ staleEvents specified order := by
  induction order with
  | nil => cases hkv
  | cons x rest ih =>
    obtain ⟨name, entry⟩ := x
    rcases List.mem_cons.1 hkv with h | h
    · subst h
      simp [staleEvents, hs]
    · obtain ⟨i1, i2⟩ := ih h
      by_cases hc : (lookup specified name).isNone = true
      · simp only [staleEvents, hc, if_true]
        exact ⟨List.mem_cons_of_mem _ (List.mem_cons_of_mem _ i1),
          List.mem_cons_of_mem _ (List.mem_cons_of_mem _ i2)⟩
      · simp only [staleEvents, hc]
        exact ⟨i1, i2⟩

theorem staleEvents_only (specified : EntryMap) (order : List (String × FilePollingEntry)) :
    ∀ ev ∈ staleEvents specified order, ∃ kv ∈ order, lookup specified kv.1 = none ∧
      (ev = Event.removeInputRunner kv.2.ir ∨ ev = Event.logMessage ("Removed: " ++ kv.1)) := by
  induction order with
  | nil => intro ev h; cases h
  | cons x rest ih =>
    obtain ⟨name, entry⟩ := x
    intro ev h
    cases hl : lookup specified name with
    | none =>
      simp only [staleEvents, hl, Option.isNone_none, if_true, List.mem_cons] at h
      rcases h with h | h | h
      · exact ⟨(name, entry), List.mem_cons_self _ _, hl, Or.inl h⟩
      · exact ⟨(name, entry), List.mem_cons_self _ _, hl, Or.inr h⟩
      · obtain ⟨kv, hkv, hk⟩ := ih ev h
        exact ⟨kv, List.mem_cons_of_mem _ hkv, hk⟩
    | some v =>
      simp only [staleEvents, hl, Option.isNone_some, Bool.false_eq_true, if_false] at h
      obtain ⟨kv, hkv, hk⟩ := ih ev h
      exact ⟨kv, List.mem_cons_of_mem _ hkv, hk⟩

/-- C7: the removal pass and its place in the cycle. The first loop of `loadInputs` leaves
in `lsdi.inputs` exactly the entries whose key is in `lsdi.specified`, each where it was;
its events are a `RemoveInputRunner` call and a "Removed" log for every running entry whose
key is absent from `lsdi.specified`, and nothing else, so no `AddInputRunner` call; and the
trace of the whole cycle is the trace of the walk (which holds no orchestrator call), then
these events, then the events of the loop over the desired set, so that every stale
removal comes before every `AddInputRunner` call. This holds of every result of
`loadInputs`, and there is one whenever every section of the tree can be probed. -/
theorem loadInputs_removal_pass (o : RangeOrders) (ho : o.Valid) (add : AddOracle)
    (specified inputs : EntryMap) (tr : List Event) :
    removeStale specified (o.stale inputs) inputs tr =
      (inputs.filter (fun kv => (lookup specified kv.1).isSome),
        tr ++ staleEvents specified (o.stale inputs)) ∧
    (∀ kv ∈ inputs, lookup specified kv.1 = none →
      Event.removeInputRunner kv.2.ir ∈ staleEvents specified (o.stale inputs) ∧
      Event.logMessage ("Removed: " ++ kv.1) ∈ staleEvents specified (o.stale inputs)) ∧
    (∀ ev ∈ staleEvents specified (o.stale inputs), ev.isAdd = false ∧
      ∃ kv ∈ inputs, lookup specified kv.1 = none ∧
        (ev = Event.removeInputRunner kv.2.ir ∨ ev = Event.logMessage ("Removed: " ++ kv.1))) ∧
    (∃ evs, (reconcile o add specified inputs tr).events =
      tr ++ staleEvents specified (o.stale inputs) ++ evs) ∧
    (∀ logDir root s, loadInputs o add logDir root inputs = some s →
      ∃ w evs, Walk logDir root logDirWalkFunc { specified := [], trace := [] } = some w ∧
        (∀ ev ∈ w.1.trace, ev.isCall = false) ∧
        s.events = w.1.trace ++ staleEvents w.1.specified (o.stale inputs) ++ evs) ∧
    (∀ logDir root, root.probesOk = true →
      ∃ s, loadInputs o add logDir root inputs = some s) := by
  refine ⟨?_, ?_, ?_, ?_, ?_, ?_⟩
  · exact Prod.ext (removeStale_inputs_valid ho specified inputs tr)
      (removeStale_trace specified (o.stale inputs) inputs tr)
  · intro kv hkv hs
    exact staleEvents_mem specified (o.stale inputs) kv ((ho.1 inputs).mem_iff.2 hkv) hs
  · intro ev hev
    refine ⟨staleEvents_noAdd specified (o.stale inputs) ev hev, ?_⟩
    obtain ⟨kv, hkv, hk⟩ := staleEvents_only specified (o.stale inputs) ev hev
    exact ⟨kv, (ho.1 inputs).mem_iff.1 hkv, hk⟩
  · rw [reconcile_eq ho]
    exact activate_trace_mono o add false _ _ _ _
  · intro logDir root s hs
    obtain ⟨w, hw, hsw⟩ := loadInputs_some o add logDir root inputs s hs
    obtain ⟨⟨evw, htr, hlog⟩, _, _⟩ := (Walk_ok logDir root _ w hw).2
    subst hsw
    rw [reconcile_eq ho]
    obtain ⟨evs, hevs⟩ := activate_trace_mono o add false (o.specified w.1.specified)
      (inputs.filter (fun kv => (lookup w.1.specified kv.1).isSome))
      (w.1.trace ++ staleEvents w.1.specified (o.stale inputs)) none
    refine ⟨w, evs, hw, ?_, hevs⟩
    intro ev hev
    rw [htr] at hev
    simp only [List.nil_append] at hev
    obtain ⟨msg, hmsg⟩ := hlog ev hev
    subst hmsg
    rfl
  · intro logDir root h
    exact loadInputs_isSome o add logDir root inputs h

/-- The stale "c" is removed before the new "b" is started. -/
theorem loadInputs_removal_pass_witness :
    removeStale [("a", sampleEntry 1 "x" "a" 5), ("b", sampleEntry 2 "y" "b" 5)]
        (reversedOrders.stale [("a", sampleEntry 1 "x" "a" 5), ("c", sampleEntry 8 "z" "c" 5)])
        [("a", sampleEntry 1 "x" "a" 5), ("c", sampleEntry 8 "z" "c" 5)] [] =
      ([("a", sampleEntry 1 "x" "a" 5)],
        [Event.removeInputRunner (sampleEntry 8 "z" "c" 5).ir, Event.logMessage "Removed: c"]) ∧
    (reconcile reversedOrders addAlwaysSucceeds
        [("a", sampleEntry 1 "x" "a" 5), ("b", sampleEntry 2 "y" "b" 5)]
        [("a", sampleEntry 1 "x" "a" 5), ("c", sampleEntry 8 "z" "c" 5)] []).events =
      [Event.removeInputRunner (sampleEntry 8 "z" "c" 5).ir, Event.logMessage "Removed: c",
       Event.addInputRunner (sampleEntry 2 "y" "b" 5).ir none, Event.logMessage "Added: b"] :=
  ⟨(loadInputs_removal_pass reversedOrders reversedOrders_valid addAlwaysSucceeds
      [("a", sampleEntry 1 "x" "a" 5), ("b", sampleEntry 2 "y" "b" 5)]
      [("a", sampleEntry 1 "x" "a" 5), ("c", sampleEntry 8 "z" "c" 5)] []).1.trans (by decide),
   by decide⟩
/-! ## C9 -/

/-- C9: the common-config hook. When `OrigPrepCommonTypedConfig` returns the config `c`,
the hook returns a config whose `Retries` is `MaxDelay: "30s", Delay: "250ms",
MaxRetries: -1` (and the zero `MaxJitter`) whatever `c.Retries` was, whose `CanExit` points
to true when `c.CanExit` was nil and is `c.CanExit` otherwise, and whose other fields are
those of `c`; when `OrigPrepCommonTypedConfig` fails, the hook returns that error. -/
theorem prepCommonTypedConfig_managed_defaults :
    (∀ c : CommonInputConfig, ∃ c', prepCommonTypedConfig (.ok c) = .ok c' ∧
      c'.Retries = { MaxDelay := "30s", Delay := "250ms", MaxJitter := "", MaxRetries := -1 } ∧
      (c.CanExit = none → c'.CanExit = some true) ∧
      (c.CanExit ≠ none → c'.CanExit = c.CanExit) ∧
      c'.Ticker = c.Ticker ∧ c'.Decoder = c.Decoder ∧ c'.Splitter = c.Splitter ∧
      c'.SyncDecode = c.SyncDecode ∧ c'.SendDecodeFailures = c.SendDecodeFailures ∧
      c'.LogDecodeFailures = c.LogDecodeFailures) ∧
    (∀ err : String, prepCommonTypedConfig (.error err) = .error err) := by
  constructor
  · intro c
    by_cases h : c.CanExit = none
    · refine ⟨_, by simp only [prepCommonTypedConfig, h, if_true]; rfl, ?_⟩
      simp [h]
    · refine ⟨_, by simp only [prepCommonTypedConfig, h, if_false]; rfl, ?_⟩
      simp [h]
  · intro err
    rfl

/-! ## C5 -/

theorem processEntry_err (o : RangeOrders) (add : AddOracle) (dups : Bool)
    (name : String) (e : FilePollingEntry) (inputs : EntryMap) (tr : List Event)
    (err : Option String)
    (h : (processEntry o add dups name e inputs tr err).returns = false) :
    (processEntry o add dups name e inputs tr err).err = err ∨
      Event.addInputRunner e.ir (processEntry o add dups name e inputs tr err).err ∈
        (processEntry o add dups name e inputs tr err).events := by
  have hstart : ∀ (m : EntryMap) (evs : List Event),
      Event.addInputRunner e.ir (startInput add name e m tr evs).err ∈
        (startInput add name e m tr evs).events := by
    intro m evs
    rw [startInput_err, startInput_events]
    simp
  cases hf : findDuplicate e (o.scan name inputs) with
  | some kv =>
    rw [processEntry_duplicate o add dups name e inputs tr err hf] at h
    cases h
  | none =>
    cases hl : lookup inputs name with
    | none =>
      rw [processEntry_fresh o add dups name e inputs tr err hf hl]
      exact Or.inr (hstart _ _)
    | some r =>
      simp only [processEntry, hf, hl]
      split
      · exact Or.inl rfl
      · exact Or.inr (hstart _ _)

/-- Where the returned error of the loop over the desired set comes from: the Duplicate
Name return of line 144, an `AddInputRunner` call of the loop that failed, or the value of
the named result the loop was entered with. -/
theorem activate_ret (o : RangeOrders) (add : AddOracle) (dups : Bool) :
    ∀ (L : List (String × FilePollingEntry)) (inputs : EntryMap) (tr : List Event)
      (err : Option String) (msg : String),
      (activate o add dups L inputs tr err).ret = some msg →
      (∃ kv ∈ L, msg = duplicateNameError kv.2.ir.name kv.1) ∨
      (∃ ir, Event.addInputRunner ir (some msg) ∈ (activate o add dups L inputs tr err).events) ∨
      err = some msg := by
  intro L
  induction L with
  | nil => intro inputs tr err msg h; exact Or.inr (Or.inr h)
  | cons x rest ih =>
    intro inputs tr err msg h
    obtain ⟨name, e⟩ := x
    simp only [activate] at h ⊢
    cases hr : (processEntry o add dups name e inputs tr err).returns with
    | true =>
      obtain ⟨_, _, herr⟩ := processEntry_returns o add dups name e inputs tr err hr
      simp only [hr, if_true, herr, Option.some.injEq] at h
      exact Or.inl ⟨(name, e), List.mem_cons_self _ _, h.symm⟩
    | false =>
      simp only [hr, Bool.false_eq_true, if_false] at h ⊢
      rcases ih _ _ _ msg h with h1 | h1 | h1
      · obtain ⟨kv, hkv, hmsg⟩ := h1
        exact Or.inl ⟨kv, List.mem_cons_of_mem _ hkv, hmsg⟩
      · exact Or.inr (Or.inl h1)
      · rcases processEntry_err o add dups name e inputs tr err hr with h2 | h2
        · exact Or.inr (Or.inr (h2.symm.trans h1))
        · rw [h1] at h2
          obtain ⟨evs, hevs⟩ := activate_trace_mono o add dups rest
            (processEntry o add dups name e inputs tr err).inputs
            (tr ++ (processEntry o add dups name e inputs tr err).events)
            (processEntry o add dups name e inputs tr err).err
          refine Or.inr (Or.inl ⟨e.ir, ?_⟩)
          rw [hevs]
          simp [h2]

/-- C5 fails as stated: the root `files.d` is walked without any error, its two files
define the same input name, every start succeeds, and `loadInputs` (hence `Run`) returns
the Duplicate Name error. -/
theorem loadInputs_error_containment_counterexample :
    Walk "/share/files.d" sampleConflictDir logDirWalkFunc { specified := [], trace := [] } =
      some ({ specified :=
                [("/share/files.d/b.toml", sampleEntry 2 "x" "/share/files.d/b.toml" 5),
                 ("/share/files.d/a.toml", sampleEntry 1 "x" "/share/files.d/a.toml" 5)]
              trace := [] }, none) ∧
    loadInputs storedOrders addAlwaysSucceeds "/share/files.d" sampleConflictDir [] =
      some { inputs := []
             events := [Event.addInputRunner
                 (sampleEntry 2 "x" "/share/files.d/b.toml" 5).ir none,
               Event.logMessage "Added: /share/files.d/b.toml",
               Event.removeInputRunner (sampleEntry 2 "x" "/share/files.d/b.toml" 5).ir,
               Event.logMessage "Removed: /share/files.d/b.toml"]
             ret := some (duplicateNameError "x" "/share/files.d/a.toml") } ∧
    (Run "/share/files.d" ⟨storedOrders, addAlwaysSucceeds, sampleConflictDir⟩ [] []).map
        Step.ret = some (some (duplicateNameError "x" "/share/files.d/a.toml")) := by
  refine ⟨by decide, by decide, by decide⟩

/-- C5, amended: in a cycle in which no `AddInputRunner` call fails, `loadInputs` returns
a non-nil error only from the loop over the desired set, on a duplicate name: the error
is the Duplicate Name error for the name and path of an entry of the walked desired set,
and `Run` returns it from its first call. The walk never returns an error, for any tree,
because `logDirWalkFunc` returns nil on every path: a visit error and every failure of
`loadFilePollingFile` (decode error, missing section, maker error) is logged with
`LogError` and the path is skipped. -/
theorem loadInputs_error_containment (o : RangeOrders) (ho : o.Valid) (add : AddOracle)
    (logDir : String) (root : FsNode) (inputs : EntryMap) (s : Step) (msg : String)
    (hs : loadInputs o add logDir root inputs = some s)
    (hret : s.ret = some msg)
    (hadd : ∀ ev ∈ s.events, ev.isFailedAdd = false) :
    (∃ w, Walk logDir root logDirWalkFunc { specified := [], trace := [] } = some w ∧
      ∃ kv ∈ w.1.specified, msg = duplicateNameError kv.2.ir.name kv.1) ∧
    (∀ wakes, Run logDir ⟨o, add, root⟩ wakes inputs = some s) ∧
    (∀ (r : String) (node : FsNode) (st : WalkState) (w : WalkState × Option WalkError),
      Walk r node logDirWalkFunc st = some w → w.2 = none) ∧
    (∀ path info err st w, logDirWalkFunc path info err st = some w → w.2 = none) ∧
    (∀ path info err st, logDirWalkFunc path info (some err) st =
      some (st.logError ("walking '" ++ path ++ "': " ++ err), none)) ∧
    (∀ path info err st, info.isDir = false → Ext path = ".toml" →
      loadFilePollingFile info.decoded = some (.error err) →
      logDirWalkFunc path (some info) none st =
        some (st.logError ("loading FilePollingInput file '" ++ path ++ "': " ++ err), none)) ∧
    (∀ err, loadFilePollingFile (.failure err) = some (.error err)) ∧
    (∀ ss, selectSection ss none = some none →
      loadFilePollingFile (.sections ss) = some (.error "No `FilePollingInput` section.")) ∧
    (∀ ss conf path err, selectSection ss none = some (some (conf, path)) →
      conf.newMakerErr = some err →
      loadFilePollingFile (.sections ss) =
        some (.error ("can't create plugin maker: " ++ err))) := by
  refine ⟨?_, ?_, ?_, ?_, ?_, ?_, ?_, ?_, ?_⟩
  · obtain ⟨w, hw, hsw⟩ := loadInputs_some o add logDir root inputs s hs
    subst hsw
    refine ⟨w, hw, ?_⟩
    rw [reconcile_eq ho] at hret hadd
    rcases activate_ret o add false _ _ _ none msg hret with h | h | h
    · obtain ⟨kv, hkv, hmsg⟩ := h
      exact ⟨kv, (ho.2.1 _).mem_iff.1 hkv, hmsg⟩
    · obtain ⟨ir, hir⟩ := h
      have := hadd _ hir
      cases this
    · cases h
  · intro wakes
    simp only [Run, hs, hret]
  · intro r node st w hw
    exact (Walk_ok r node st w hw).1
  · intro path info err st w hw
    exact (logDirWalkFunc_ok path info err st w hw).1
  · intro path info err st
    rfl
  · intro path info err st hd hext hload
    simp only [logDirWalkFunc, hd, hext, hload]
    simp
  · intro err
    rfl
  · intro ss hs
    simp only [loadFilePollingFile, hs]
  · intro ss conf path err hs he
    simp only [loadFilePollingFile, hs, he]

/-- The two files of `files.d` that both define the input "x". -/
theorem loadInputs_error_containment_witness :
    ∃ w, Walk "/share/files.d" sampleConflictDir logDirWalkFunc
        { specified := [], trace := [] } = some w ∧
      ∃ kv ∈ w.1.specified,
        duplicateNameError "x" "/share/files.d/a.toml" = duplicateNameError kv.2.ir.name kv.1 :=
  (loadInputs_error_containment storedOrders storedOrders_valid addAlwaysSucceeds
    "/share/files.d" sampleConflictDir []
    { inputs := []
      events := [Event.addInputRunner (sampleEntry 2 "x" "/share/files.d/b.toml" 5).ir none,
        Event.logMessage "Added: /share/files.d/b.toml",
        Event.removeInputRunner (sampleEntry 2 "x" "/share/files.d/b.toml" 5).ir,
        Event.logMessage "Removed: /share/files.d/b.toml"]
      ret := some (duplicateNameError "x" "/share/files.d/a.toml") }
    (duplicateNameError "x" "/share/files.d/a.toml")
    (by decide) rfl (by decide)).1
/-! ## C10 -/

theorem reconcile_nil {o : RangeOrders} (ho : o.Valid) (add : AddOracle) (inputs : EntryMap)
    (tr : List Event) :
    reconcile o add [] inputs tr =
      { inputs := [], events := tr ++ staleEvents [] (o.stale inputs), ret := none } := by
  rw [reconcile_eq ho]
  have h1 : o.specified [] = [] := List.Perm.eq_nil (ho.2.1 [])
  have h2 : inputs.filter (fun kv => (lookup [] kv.1).isSome) = [] := by
    rw [List.filter_eq_nil_iff]
    intro kv _
    simp [lookup]
  rw [h1, h2]
  rfl

/-- C10 fails as stated: with the root missing, and with the root unreadable,
`loadInputs` logs the walk error, stops the running input and returns nil, and `Run` does
not return the walk error. -/
theorem loadInputs_root_failure_counterexample :
    loadInputs storedOrders addAlwaysSucceeds "/share/files.d" sampleMissingRoot
        [("/share/files.d/a.toml", sampleEntry 1 "x" "/share/files.d/a.toml" 5)] =
      some { inputs := []
             events := [Event.logError "walking '/share/files.d': no such file or directory",
               Event.removeInputRunner (sampleEntry 1 "x" "/share/files.d/a.toml" 5).ir,
               Event.logMessage "Removed: /share/files.d/a.toml"]
             ret := none } ∧
    loadInputs storedOrders addAlwaysSucceeds "/share/files.d" sampleUnreadableRoot
        [("/share/files.d/a.toml", sampleEntry 1 "x" "/share/files.d/a.toml" 5)] =
      some { inputs := []
             events := [Event.logError "walking '/share/files.d': permission denied",
               Event.removeInputRunner (sampleEntry 1 "x" "/share/files.d/a.toml" 5).ir,
               Event.logMessage "Removed: /share/files.d/a.toml"]
             ret := none } ∧
    (Run "/share/files.d" ⟨storedOrders, addAlwaysSucceeds, sampleMissingRoot⟩ [Wake.stop]
        [("/share/files.d/a.toml", sampleEntry 1 "x" "/share/files.d/a.toml" 5)]).map
      Step.ret = some none := by
  refine ⟨by decide, by decide, by decide⟩

/-- C10, amended: a root failure is not fatal. When `Lstat` fails on the root, and when the
root cannot be read, the walk function logs that error with `LogError` and returns nil, so
`loadInputs` goes on with an empty desired set: it stops every running input, ends with an
empty `lsdi.inputs` and returns nil, and `Run` goes on to its loop. A visit error on a
non-root path (a failed `Lstat`, an unreadable directory) is logged in the same way and the
walk goes on with the next name. -/
theorem loadInputs_root_failure (o : RangeOrders) (ho : o.Valid) (add : AddOracle)
    (logDir name err : String) (children : FsList) (inputs : EntryMap) :
    loadInputs o add logDir (.missing name err) inputs =
      some { inputs := []
             events := [Event.logError ("walking '" ++ logDir ++ "': " ++ err)] ++
               staleEvents [] (o.stale inputs)
             ret := none } ∧
    loadInputs o add logDir (.dir name (some err) children) inputs =
      some { inputs := []
             events := [Event.logError ("walking '" ++ logDir ++ "': " ++ err)] ++
               staleEvents [] (o.stale inputs)
             ret := none } ∧
    (∀ kv ∈ inputs, Event.removeInputRunner kv.2.ir ∈ staleEvents [] (o.stale inputs)) ∧
    (∀ wakes, Run logDir ⟨o, add, .missing name err⟩ wakes inputs =
      runLoop logDir wakes []
        ([Event.logError ("walking '" ++ logDir ++ "': " ++ err)] ++
          staleEvents [] (o.stale inputs))) ∧
    (∀ path rest st, walkNames logDirWalkFunc path (.cons (.missing name err) rest) st =
      walkNames logDirWalkFunc path rest
        (st.logError ("walking '" ++ Join path name ++ "': " ++ err))) ∧
    (∀ path rest st,
      walkNames logDirWalkFunc path (.cons (.dir name (some err) children) rest) st =
        walkNames logDirWalkFunc path rest
          (st.logError ("walking '" ++ Join path name ++ "': " ++ err))) := by
  have hw1 : Walk logDir (.missing name err) logDirWalkFunc { specified := [], trace := [] } =
      some ({ specified := [],
              trace := [Event.logError ("walking '" ++ logDir ++ "': " ++ err)] }, none) := by
    simp [Walk, walk, logDirWalkFunc, WalkState.logError]
  have hw2 : Walk logDir (.dir name (some err) children) logDirWalkFunc
      { specified := [], trace := [] } =
      some ({ specified := [],
              trace := [Event.logError ("walking '" ++ logDir ++ "': " ++ err)] }, none) := by
    simp [Walk, walk, logDirWalkFunc, WalkState.logError]
  have h1 : loadInputs o add logDir (.missing name err) inputs =
      some { inputs := []
             events := [Event.logError ("walking '" ++ logDir ++ "': " ++ err)] ++
               staleEvents [] (o.stale inputs)
             ret := none } := by
    rw [loadInputs_eq o add logDir _ inputs _ hw1, reconcile_nil ho]
  refine ⟨h1, ?_, ?_, ?_, ?_, ?_⟩
  · rw [loadInputs_eq o add logDir _ inputs _ hw2, reconcile_nil ho]
  · intro kv hkv
    exact (staleEvents_mem [] (o.stale inputs) kv ((ho.1 inputs).mem_iff.2 hkv) rfl).1
  · intro wakes
    simp only [Run, h1]
  · intro path rest st
    rw [walkNames]
    simp [logDirWalkFunc]
  · intro path rest st
    rw [walkNames]
    simp [walk, logDirWalkFunc]

/-- The missing root `files.d` while the input of `a.toml` is running. -/
theorem loadInputs_root_failure_witness :
    loadInputs reversedOrders addAlwaysSucceeds "/share/files.d"
        (.missing "files.d" "no such file or directory")
        [("/share/files.d/a.toml", sampleEntry 1 "x" "/share/files.d/a.toml" 5)] =
      some { inputs := []
             events := [Event.logError "walking '/share/files.d': no such file or directory",
               Event.removeInputRunner (sampleEntry 1 "x" "/share/files.d/a.toml" 5).ir,
               Event.logMessage "Removed: /share/files.d/a.toml"]
             ret := none } :=
  (loadInputs_root_failure reversedOrders reversedOrders_valid
      addAlwaysSucceeds "/share/files.d" "files.d" "no such file or directory" .nil
      [("/share/files.d/a.toml", sampleEntry 1 "x" "/share/files.d/a.toml" 5)]).1.trans
    (by decide)

/-! ## C3 -/

/-- C3: the predicate "the running set is keyed by `fileName` and no two entries under
distinct keys have the same `ir.Name()`" (for a Go map, one entry per key) is preserved by
lines 121-167 of `loadInputs`, for every desired set keyed by `fileName` (whatever names
it holds), every visiting order and every orchestrator, whether or not the cycle ends with
the Duplicate Name error; and so it is preserved by `loadInputs` for every tree, the walk
storing each entry under its `fileName`: it holds of every result of `loadInputs`, and
there is one whenever every section of the tree can be probed. -/
theorem loadInputs_preserves_name_uniqueness (o : RangeOrders) (ho : o.Valid) (add : AddOracle)
    (specified inputs : EntryMap) (tr : List Event)
    (hS : KeyedByFileName specified)
    (hI : IsMap inputs ∧ KeyedByFileName inputs ∧ UniqueNames inputs) :
    (IsMap (reconcile o add specified inputs tr).inputs ∧
      KeyedByFileName (reconcile o add specified inputs tr).inputs ∧
      UniqueNames (reconcile o add specified inputs tr).inputs) ∧
    (∀ logDir root s, loadInputs o add logDir root inputs = some s →
      IsMap s.inputs ∧ KeyedByFileName s.inputs ∧ UniqueNames s.inputs) ∧
    (∀ logDir root, root.probesOk = true →
      ∃ s, loadInputs o add logDir root inputs = some s) := by
  have key : ∀ (S : EntryMap) (t : List Event), KeyedByFileName S →
      IsMap (reconcile o add S inputs t).inputs ∧
      KeyedByFileName (reconcile o add S inputs t).inputs ∧
      UniqueNames (reconcile o add S inputs t).inputs := by
    intro S t hS'
    rw [reconcile_eq ho]
    apply activate_invariant ho
    · intro kv h
      exact hS' kv ((ho.2.1 S).mem_iff.1 h)
    · exact filter_invariant _ hI
  refine ⟨key specified tr hS, ?_, ?_⟩
  · intro logDir root s hs
    obtain ⟨w, hw, hsw⟩ := loadInputs_some o add logDir root inputs s hs
    subst hsw
    apply key
    exact (Walk_ok logDir root _ w hw).2.2.2 (fun _ h => by cases h)
  · intro logDir root h
    exact loadInputs_isSome o add logDir root inputs h

/-- The running input "x" of file "a" and a desired set in which "b" and "c" both define
"y": the cycle ends with the Duplicate Name error and the predicate still holds. -/
theorem loadInputs_preserves_name_uniqueness_witness :
    (reconcile storedOrders addAlwaysSucceeds
        [("a", sampleEntry 1 "x" "a" 5), ("b", sampleEntry 2 "y" "b" 5),
         ("c", sampleEntry 3 "y" "c" 5)]
        [("a", sampleEntry 1 "x" "a" 5)] []).ret = some (duplicateNameError "y" "c") ∧
    UniqueNames (reconcile storedOrders addAlwaysSucceeds
        [("a", sampleEntry 1 "x" "a" 5), ("b", sampleEntry 2 "y" "b" 5),
         ("c", sampleEntry 3 "y" "c" 5)]
        [("a", sampleEntry 1 "x" "a" 5)] []).inputs :=
  ⟨by decide,
   (loadInputs_preserves_name_uniqueness storedOrders storedOrders_valid addAlwaysSucceeds
      [("a", sampleEntry 1 "x" "a" 5), ("b", sampleEntry 2 "y" "b" 5),
       ("c", sampleEntry 3 "y" "c" 5)]
      [("a", sampleEntry 1 "x" "a" 5)] []
      (by unfold KeyedByFileName; decide)
      ⟨by unfold IsMap; decide, by unfold KeyedByFileName; decide,
        by unfold UniqueNames; decide⟩).1.2.2⟩
/-! ## C6 -/

theorem string_append_cancel_left (a b c : String) (h : a ++ b = a ++ c) : b = c := by
  have h1 := congrArg String.data h
  simp only [String.data_append] at h1
  exact String.ext (List.append_cancel_left h1)

theorem added_ne_removed (a b : String) : "Added: " ++ a ≠ "Removed: " ++ b :=
  fun h => removed_ne_added b a h.symm

theorem NoLogFor.nil (p : String) : NoLogFor p [] := ⟨by simp, by simp⟩

theorem NoLogFor.append {p : String} {a b : List Event} (ha : NoLogFor p a)
    (hb : NoLogFor p b) : NoLogFor p (a ++ b) := by
  constructor
  · intro h
    rcases List.mem_append.1 h with h | h
    · exact ha.1 h
    · exact hb.1 h
  · intro h
    rcases List.mem_append.1 h with h | h
    · exact ha.2 h
    · exact hb.2 h

theorem staleEvents_noLogFor (specified : EntryMap) (order : List (String × FilePollingEntry))
    (p : String) (hp : lookup specified p ≠ none) : NoLogFor p (staleEvents specified order) := by
  constructor
  · intro h
    obtain ⟨kv, _, hk, hev⟩ := staleEvents_only specified order _ h
    rcases hev with hev | hev
    · cases hev
    · injection hev with hev
      have := string_append_cancel_left _ _ _ hev
      rw [this] at hp
      exact hp hk
  · intro h
    obtain ⟨kv, _, _, hev⟩ := staleEvents_only specified order _ h
    rcases hev with hev | hev
    · cases hev
    · injection hev with hev
      exact added_ne_removed _ _ hev

theorem startInput_other (add : AddOracle) (q p : String) (e : FilePollingEntry)
    (m : EntryMap) (tr evs : List Event) (hq : q ≠ p) (hevs : NoLogFor p evs) :
    NoLogFor p (startInput add q e m tr evs).events ∧
      lookup (startInput add q e m tr evs).inputs p = lookup m p ∧
      (∀ kv ∈ (startInput add q e m tr evs).inputs, kv ∈ m ∨ kv = (q, e)) := by
  have hpq : p ≠ q := fun h => hq h.symm
  rw [startInput_events, startInput_inputs]
  refine ⟨NoLogFor.append hevs ?_, ?_, ?_⟩
  · constructor
    · intro h
      simp only [List.mem_cons, List.mem_singleton, List.not_mem_nil, or_false] at h
      rcases h with h | h
      · cases h
      · cases hr : add (tr ++ evs) e.ir with
        | some err => rw [hr] at h; cases h
        | none =>
          rw [hr] at h
          injection h with h
          exact removed_ne_added _ _ h
    · intro h
      simp only [List.mem_cons, List.mem_singleton, List.not_mem_nil, or_false] at h
      rcases h with h | h
      · cases h
      · cases hr : add (tr ++ evs) e.ir with
        | some err => rw [hr] at h; cases h
        | none =>
          rw [hr] at h
          injection h with h
          exact hpq (string_append_cancel_left _ _ _ h)
  · cases add (tr ++ evs) e.ir with
    | some err => rfl
    | none => exact lookup_store_ne m e hpq
  · intro kv hkv
    cases hr : add (tr ++ evs) e.ir with
    | some err =>
      rw [hr] at hkv
      exact Or.inl hkv
    | none =>
      rw [hr] at hkv
      rcases mem_store.1 hkv with h | h
      · exact Or.inr h
      · exact Or.inl h.1

/-- An iteration for another path that does not return leaves the entry under `p` alone,
logs nothing for `p`, and adds at most its own entry. -/
theorem processEntry_other (o : RangeOrders) (add : AddOracle) (dups : Bool)
    (q p : String) (e : FilePollingEntry) (m : EntryMap) (tr : List Event)
    (err : Option String) (hq : q ≠ p)
    (hr : (processEntry o add dups q e m tr err).returns = false) :
    findDuplicate e (o.scan q m) = none ∧
      NoLogFor p (processEntry o add dups q e m tr err).events ∧
      lookup (processEntry o add dups q e m tr err).inputs p = lookup m p ∧
      (∀ kv ∈ (processEntry o add dups q e m tr err).inputs, kv ∈ m ∨ kv = (q, e)) := by
  have hpq : p ≠ q := fun h => hq h.symm
  cases hf : findDuplicate e (o.scan q m) with
  | some kv =>
    rw [processEntry_duplicate o add dups q e m tr err hf] at hr
    cases hr
  | none =>
    refine ⟨rfl, ?_⟩
    cases hl : lookup m q with
    | none =>
      rw [processEntry_fresh o add dups q e m tr err hf hl]
      exact startInput_other add q p e m tr [] hq (NoLogFor.nil p)
    | some r =>
      by_cases hc : ((Equals r.config e.config && r.ir.name == e.ir.name) && !dups) = true
      · have : processEntry o add dups q e m tr err =
            { inputs := m, events := [], err := err, returns := false } := by
          simp only [processEntry, hf, hl, hc, if_true]
        rw [this]
        exact ⟨NoLogFor.nil p, rfl, fun kv h => Or.inl h⟩
      · have hc' : ((Equals r.config e.config && r.ir.name == e.ir.name) && !dups) = false := by
          simpa using hc
        rw [processEntry_replace o add dups q e m tr err hf hl hc']
        have hpre : NoLogFor p
            [Event.removeInputRunner r.ir, Event.logMessage ("Removed: " ++ q)] := by
          constructor
          · intro h
            simp only [List.mem_cons, List.mem_singleton, List.not_mem_nil, or_false] at h
            rcases h with h | h
            · cases h
            · injection h with h
              exact hpq (string_append_cancel_left _ _ _ h)
          · intro h
            simp only [List.mem_cons, List.mem_singleton, List.not_mem_nil, or_false] at h
            rcases h with h | h
            · cases h
            · injection h with h
              exact added_ne_removed _ _ h
        obtain ⟨s1, s2, s3⟩ := startInput_other add q p e (delete m q) tr _ hq hpre
        refine ⟨s1, s2.trans (lookup_delete_ne m hpq), ?_⟩
        intro kv hkv
        rcases s3 kv hkv with h | h
        · exact Or.inl (mem_delete.1 h).1
        · exact Or.inr h

/-- The loop over entries of other paths, when the cycle does not return the Duplicate
Name error: the entry under `p` is left alone and nothing is logged for `p`. -/
theorem activate_other (o : RangeOrders) (add : AddOracle) (p : String) :
    ∀ (L : List (String × FilePollingEntry)) (m : EntryMap) (tr : List Event)
      (err : Option String),
      p ∉ keys L →
      (∀ a b, (activate o add false L m tr err).ret ≠ some (duplicateNameError a b)) →
      lookup (activate o add false L m tr err).inputs p = lookup m p ∧
      ∃ evs, (activate o add false L m tr err).events = tr ++ evs ∧ NoLogFor p evs := by
  intro L
  induction L with
  | nil =>
    intro m tr err _ _
    exact ⟨rfl, [], by simp [activate], NoLogFor.nil p⟩
  | cons x rest ih =>
    intro m tr err hp hnd
    obtain ⟨q, e⟩ := x
    simp only [keys, List.map_cons, List.mem_cons, not_or] at hp
    have hq : q ≠ p := fun h => hp.1 h.symm
    simp only [activate] at hnd ⊢
    cases hr : (processEntry o add false q e m tr err).returns with
    | true =>
      obtain ⟨_, _, herr⟩ := processEntry_returns o add false q e m tr err hr
      simp only [hr, if_true, herr] at hnd
      exact absurd rfl (hnd _ _)
    | false =>
      simp only [hr, Bool.false_eq_true, if_false] at hnd ⊢
      obtain ⟨_, s1, s2, _⟩ := processEntry_other o add false q p e m tr err hq hr
      obtain ⟨i1, evs, i2, i3⟩ := ih _ _ _ hp.2 hnd
      refine ⟨i1.trans s2, (processEntry o add false q e m tr err).events ++ evs, ?_,
        NoLogFor.append s1 i3⟩
      rw [i2, List.append_assoc]

/-- The loop over the entries visited before `p`, when the cycle does not return the
Duplicate Name error: it reaches `p` with the old entry `r` still under `p` and no entry
of its name under another path. -/
theorem activate_reach {o : RangeOrders} (ho : o.Valid) (add : AddOracle) (p : String)
    (r : FilePollingEntry) :
    ∀ (L1 L2 : List (String × FilePollingEntry)) (m : EntryMap) (tr : List Event)
      (err : Option String),
      p ∉ keys L1 → KeyedByFileName L1 → KeyedByFileName m → lookup m p = some r →
      (∀ kv ∈ m, kv.1 ≠ p → kv.2.ir.name ≠ r.ir.name) →
      (∀ a b, (activate o add false (L1 ++ L2) m tr err).ret ≠ some (duplicateNameError a b)) →
      KeyedByFileName (activate o add false L1 m tr err).inputs ∧
      lookup (activate o add false L1 m tr err).inputs p = some r ∧
      (∀ kv ∈ (activate o add false L1 m tr err).inputs, kv.1 ≠ p →
        kv.2.ir.name ≠ r.ir.name) ∧
      (∃ evs, (activate o add false L1 m tr err).events = tr ++ evs ∧ NoLogFor p evs) ∧
      activate o add false (L1 ++ L2) m tr err =
        activate o add false L2 (activate o add false L1 m tr err).inputs
          (activate o add false L1 m tr err).events (activate o add false L1 m tr err).ret := by
  intro L1
  induction L1 with
  | nil =>
    intro L2 m tr err _ _ hk hl hno _
    exact ⟨hk, hl, hno, ⟨[], by simp [activate], NoLogFor.nil p⟩, rfl⟩
  | cons x rest ih =>
    intro L2 m tr err hp hL hk hl hno hnd
    obtain ⟨q, e⟩ := x
    simp only [keys, List.map_cons, List.mem_cons, not_or] at hp
    have hq : q ≠ p := fun h => hp.1 h.symm
    have he : e.fileName = q := hL (q, e) (List.mem_cons_self _ _)
    have hrest : KeyedByFileName rest := fun kv h => hL kv (List.mem_cons_of_mem _ h)
    simp only [List.cons_append, activate] at hnd ⊢
    cases hr : (processEntry o add false q e m tr err).returns with
    | true =>
      obtain ⟨_, _, herr⟩ := processEntry_returns o add false q e m tr err hr
      simp only [hr, if_true, herr] at hnd
      exact absurd rfl (hnd _ _)
    | false =>
      simp only [hr, Bool.false_eq_true, if_false] at hnd ⊢
      obtain ⟨hf, s1, s2, s3⟩ := processEntry_other o add false q p e m tr err hq hr
      have hscan := findDuplicate_none ho hf
      -- the entry of this iteration does not have the name of `r`
      have hename : e.ir.name ≠ r.ir.name := by
        intro hn
        have h1 := hscan (p, r) (mem_of_lookup hl) hn
        have h2 : r.fileName = p := hk (p, r) (mem_of_lookup hl)
        simp only at h1
        exact hq (he.symm.trans (h1.trans h2))
      have hk' : KeyedByFileName (processEntry o add false q e m tr err).inputs := by
        intro kv hkv
        rcases s3 kv hkv with h | h
        · exact hk kv h
        · rw [h]; exact he
      have hno' : ∀ kv ∈ (processEntry o add false q e m tr err).inputs, kv.1 ≠ p →
          kv.2.ir.name ≠ r.ir.name := by
        intro kv hkv hkp
        rcases s3 kv hkv with h | h
        · exact hno kv h hkp
        · rw [h]; exact hename
      obtain ⟨i1, i2, i3, ⟨evs, i4, i5⟩, i6⟩ := ih L2 _ _ _ hp.2 hrest hk' (s2.trans hl) hno' hnd
      refine ⟨i1, i2, i3, ⟨(processEntry o add false q e m tr err).events ++ evs, ?_,
        NoLogFor.append s1 i5⟩, i6⟩
      rw [i4, List.append_assoc]
/-- C6 fails as stated, in both directions, with no running entry of the name of "a"
under another path. First: the config of "a" changed (interval 9 to 5), but the desired
"c" is visited first, meets the running "b" of its name, and the cycle returns Duplicate
Name: no `RemoveInputRunner` and no `AddInputRunner` for "a", which keeps running with the
old config. Second: the config of "a" is unchanged, but the desired "b" of the same name is
visited first and evicts the runner of "a": a call and a log for "a". -/
theorem loadInputs_equality_sensitivity_counterexample :
    reconcile storedOrders addAlwaysSucceeds
        [("c", sampleEntry 3 "y" "c" 5), ("a", sampleEntry 1 "x" "a" 5),
         ("b", sampleEntry 2 "y" "b" 5)]
        [("a", sampleEntry 7 "x" "a" 9), ("b", sampleEntry 8 "y" "b" 5)] [] =
      { inputs := [("a", sampleEntry 7 "x" "a" 9)]
        events := [Event.removeInputRunner (sampleEntry 8 "y" "b" 5).ir,
          Event.logMessage "Removed: b"]
        ret := some (duplicateNameError "y" "c") } ∧
    reconcile storedOrders addAlwaysSucceeds
        [("b", sampleEntry 2 "x" "b" 5), ("a", sampleEntry 1 "x" "a" 5)]
        [("a", sampleEntry 7 "x" "a" 5)] [] =
      { inputs := []
        events := [Event.removeInputRunner (sampleEntry 7 "x" "a" 5).ir,
          Event.logMessage "Removed: a"]
        ret := some (duplicateNameError "x" "b") } := by
  refine ⟨by decide, by decide⟩

/-- C6, amended: equality sensitivity in a cycle that does not return the Duplicate Name
error. Let the running set be keyed by `fileName` and hold `r` under path `p`, let the
desired set hold `e` under `p` with the name of `r`, and let no running entry under
another path have that name. `Equals` is true exactly when `FilePath` and
`TickerInterval` agree. The loop over the desired set visits some entries `L1`, then
`(p, e)`, then the rest `L2`; it reaches `p` in a state `s1` where `r` is still under `p`;
the events of the cycle are those before `p` is reached, those of the iteration for `p`,
and those after it, and no "Removed" or "Added" line for `p` is logged before or after. If
the configs are equal the iteration for `p` has no event and changes nothing, and `r` is
still under `p` when the cycle ends; otherwise its events are `RemoveInputRunner` on the
runner of `r`, the "Removed" log, `AddInputRunner` on the runner of `e` and one log line,
and when that start succeeds `e` is under `p` when the cycle ends. -/
theorem loadInputs_equality_sensitivity (o : RangeOrders) (ho : o.Valid) (add : AddOracle)
    (specified inputs : EntryMap) (tr : List Event) (p : String) (r e : FilePollingEntry)
    (hSm : IsMap specified) (hS : KeyedByFileName specified) (hI : KeyedByFileName inputs)
    (hl : lookup inputs p = some r) (hd : lookup specified p = some e)
    (hn : e.ir.name = r.ir.name)
    (hno : ∀ kv ∈ inputs, kv.1 ≠ p → kv.2.ir.name ≠ e.ir.name)
    (hnd : ∀ a b, (reconcile o add specified inputs tr).ret ≠ some (duplicateNameError a b)) :
    (Equals r.config e.config = true ↔
      r.config.FilePath = e.config.FilePath ∧ r.config.TickerInterval = e.config.TickerInterval) ∧
    ∃ L1 L2 s1 before after,
      o.specified specified = L1 ++ (p, e) :: L2 ∧
      activate o add false L1 (inputs.filter (fun kv => (lookup specified kv.1).isSome))
        (tr ++ staleEvents specified (o.stale inputs)) none = s1 ∧
      s1.events = tr ++ before ∧
      lookup s1.inputs p = some r ∧
      NoLogFor p before ∧ NoLogFor p after ∧
      (reconcile o add specified inputs tr).events =
        s1.events ++ (processEntry o add false p e s1.inputs s1.events s1.ret).events ++ after ∧
      (Equals r.config e.config = true →
        processEntry o add false p e s1.inputs s1.events s1.ret =
          { inputs := s1.inputs, events := [], err := s1.ret, returns := false } ∧
        lookup (reconcile o add specified inputs tr).inputs p = some r) ∧
      (Equals r.config e.config = false →
        (processEntry o add false p e s1.inputs s1.events s1.ret).events =
          [Event.removeInputRunner r.ir, Event.logMessage ("Removed: " ++ p),
           Event.addInputRunner e.ir
             (add (s1.events ++
               [Event.removeInputRunner r.ir, Event.logMessage ("Removed: " ++ p)]) e.ir),
           match add (s1.events ++
               [Event.removeInputRunner r.ir, Event.logMessage ("Removed: " ++ p)]) e.ir with
           | some err => Event.logError ("creating input '" ++ p ++ "': " ++ err)
           | none => Event.logMessage ("Added: " ++ p)] ∧
        (add (s1.events ++
            [Event.removeInputRunner r.ir, Event.logMessage ("Removed: " ++ p)]) e.ir = none →
          lookup (reconcile o add specified inputs tr).inputs p = some e)) := by
  refine ⟨Equals_iff _ _, ?_⟩
  have hperm := ho.2.1 specified
  have hmem : (p, e) ∈ o.specified specified := hperm.mem_iff.2 (mem_of_lookup hd)
  obtain ⟨L1, L2, hL⟩ := List.append_of_mem hmem
  have hndk : (keys (o.specified specified)).Nodup :=
    (List.Perm.map Prod.fst hperm).nodup_iff.2 hSm
  rw [hL] at hndk
  simp only [keys, List.map_append, List.map_cons] at hndk
  have hp1 : p ∉ keys L1 := by
    intro h
    exact (List.nodup_append.1 hndk).2.2 h (List.mem_cons_self _ _)
  have hp2 : p ∉ keys L2 := by
    have := (List.nodup_append.1 hndk).2.1
    exact (List.nodup_cons.1 this).1
  have hLk : KeyedByFileName (o.specified specified) := fun kv h => hS kv (hperm.mem_iff.1 h)
  rw [hL] at hLk
  have hL1k : KeyedByFileName L1 := fun kv h => hLk kv (List.mem_append_left _ h)
  have he : e.fileName = p := hS (p, e) (mem_of_lookup hd)
  have hI0k : KeyedByFileName (inputs.filter (fun kv => (lookup specified kv.1).isSome)) :=
    fun kv h => hI kv (List.mem_filter.1 h).1
  have hI0l : lookup (inputs.filter (fun kv => (lookup specified kv.1).isSome)) p = some r := by
    rw [lookup_filter_specified, hd]
    simpa using hl
  have hI0no : ∀ kv ∈ inputs.filter (fun kv => (lookup specified kv.1).isSome), kv.1 ≠ p →
      kv.2.ir.name ≠ r.ir.name := by
    intro kv hkv hkp
    rw [← hn]
    exact hno kv (List.mem_filter.1 hkv).1 hkp
  rw [reconcile_eq ho, hL] at hnd ⊢
  obtain ⟨r1, r2, r3, ⟨evs, r4, r5⟩, r6⟩ := activate_reach ho add p r L1 ((p, e) :: L2)
    (inputs.filter (fun kv => (lookup specified kv.1).isSome))
    (tr ++ staleEvents specified (o.stale inputs)) none hp1 hL1k hI0k hI0l hI0no hnd
  rw [r6] at hnd ⊢
  generalize hs1 : activate o add false L1
    (inputs.filter (fun kv => (lookup specified kv.1).isSome))
    (tr ++ staleEvents specified (o.stale inputs)) none = s1 at r1 r2 r3 r4 r6 hnd ⊢
  -- the iteration for `p` finds no duplicate
  have hf : findDuplicate e (o.scan p s1.inputs) = none := by
    apply findDuplicate_of_none_exists ho
    intro kv hkv hname
    have hk : kv.1 = p := by
      by_contra hc
      exact r3 kv hkv hc (hname.symm.trans hn)
    rw [he, r1 kv hkv, hk]
  have hret := processEntry_not_returns o add false p e s1.inputs s1.events s1.ret hf
  simp only [activate, hret, Bool.false_eq_true, if_false] at hnd ⊢
  obtain ⟨a1, after, a2, a3⟩ := activate_other o add p L2
    (processEntry o add false p e s1.inputs s1.events s1.ret).inputs
    (s1.events ++ (processEntry o add false p e s1.inputs s1.events s1.ret).events)
    (processEntry o add false p e s1.inputs s1.events s1.ret).err hp2 hnd
  refine ⟨L1, L2, s1, staleEvents specified (o.stale inputs) ++ evs, after, rfl, hs1, ?_, r2,
    NoLogFor.append (staleEvents_noLogFor specified _ p (by rw [hd]; simp)) r5, a3, a2, ?_, ?_⟩
  · rw [r4, List.append_assoc]
  · intro heq
    have hkeep := processEntry_keep o add p e s1.inputs s1.events s1.ret hf r2 heq hn.symm
    refine ⟨hkeep, ?_⟩
    rw [a1, hkeep]
    exact r2
  · intro hne
    have hc : ((Equals r.config e.config && r.ir.name == e.ir.name) && !false) = false := by
      simp [hne]
    have hrep := processEntry_replace o add false p e s1.inputs s1.events s1.ret hf r2 hc
    refine ⟨?_, ?_⟩
    · rw [hrep, startInput_events]; rfl
    · intro hok
      rw [a1, hrep, startInput_inputs, hok]
      simp [lookup_store_self]

/-- The input of file "a" with its interval changed from 9 to 5, between the unchanged "b"
and the new "c": the cycle removes and restarts "a", and starts "c". -/
theorem loadInputs_equality_sensitivity_witness :
    reconcile storedOrders addAlwaysSucceeds
        [("b", sampleEntry 2 "y" "b" 5), ("a", sampleEntry 1 "x" "a" 5),
         ("c", sampleEntry 3 "z" "c" 5)]
        [("a", sampleEntry 7 "x" "a" 9), ("b", sampleEntry 8 "y" "b" 5)] [] =
      { inputs := [("c", sampleEntry 3 "z" "c" 5), ("a", sampleEntry 1 "x" "a" 5),
          ("b", sampleEntry 8 "y" "b" 5)]
        events := [Event.removeInputRunner (sampleEntry 7 "x" "a" 9).ir,
          Event.logMessage "Removed: a",
          Event.addInputRunner (sampleEntry 1 "x" "a" 5).ir none, Event.logMessage "Added: a",
          Event.addInputRunner (sampleEntry 3 "z" "c" 5).ir none, Event.logMessage "Added: c"]
        ret := none } ∧
    (Equals (sampleEntry 7 "x" "a" 9).config (sampleEntry 1 "x" "a" 5).config = true ↔
      (sampleEntry 7 "x" "a" 9).config.FilePath = (sampleEntry 1 "x" "a" 5).config.FilePath ∧
      (sampleEntry 7 "x" "a" 9).config.TickerInterval =
        (sampleEntry 1 "x" "a" 5).config.TickerInterval) :=
  ⟨by decide,
   (loadInputs_equality_sensitivity storedOrders storedOrders_valid addAlwaysSucceeds
      [("b", sampleEntry 2 "y" "b" 5), ("a", sampleEntry 1 "x" "a" 5),
       ("c", sampleEntry 3 "z" "c" 5)]
      [("a", sampleEntry 7 "x" "a" 9), ("b", sampleEntry 8 "y" "b" 5)] [] "a"
      (sampleEntry 7 "x" "a" 9) (sampleEntry 1 "x" "a" 5)
      (by unfold IsMap; decide) (by unfold KeyedByFileName; decide)
      (by unfold KeyedByFileName; decide) (by decide) (by decide) rfl (by decide)
      (by
        intro a b h
        have h1 : (reconcile storedOrders addAlwaysSucceeds
            [("b", sampleEntry 2 "y" "b" 5), ("a", sampleEntry 1 "x" "a" 5),
             ("c", sampleEntry 3 "z" "c" 5)]
            [("a", sampleEntry 7 "x" "a" 9), ("b", sampleEntry 8 "y" "b" 5)] []).ret = none := by
          decide
        rw [h1] at h
        cases h)).1⟩

/-! ## The named result after a failed start -/

/-- The start error of the last `AddInputRunner` call of a cycle is what `loadInputs`
returns, and `Run` ends with it: one file, whose input fails to start. -/
theorem Run_returns_last_start_error :
    Run "/share/files.d" ⟨storedOrders, addAlwaysFails "boom",
        .dir "files.d" none (.cons (sampleFile "a.toml" 1 "x" 5) .nil)⟩ [] [] =
      some { inputs := []
             events := [Event.addInputRunner
                 (sampleEntry 1 "x" "/share/files.d/a.toml" 5).ir (some "boom"),
               Event.logError "creating input '/share/files.d/a.toml': boom"]
             ret := some "boom" } := by
  decide

end FilePollingDirectoryInput
